import Mathlib

/-!
Verification development for the taxonomy data generator
(`scripts/generate_data.py` of the TaxonomyViewing repository).

The Python generator is shallowly embedded: each relevant function of the
source is translated into an executable Lean definition.  Python `dict`s are
modelled as association lists with insertion-order semantics (`dictInsert`
replaces in place, `bucketAppend` models `setdefault(k, []).append(v)`),
Python strings as Lean `String` manipulated through their character lists,
and Python `float` similarity values as exact rationals `ℚ` (the similarity
arithmetic of the source only ever forms small integer ratios).  The
process-seeded Python `hash` builtin is modelled as an explicit function
parameter.  Mutable tree updates of the source are modelled by explicit
state passing.
-/

/-- Replace-in-place insertion, the model of a Python `dict` assignment
`d[k] = v`: an existing binding keeps its position and gets the new value,
a new key is appended at the end. -/
def dictInsert {α : Type} (k : String) (v : α) : List (String × α) → List (String × α)
  | [] => [(k, v)]
  | p :: rest => if p.1 = k then (k, v) :: rest else p :: dictInsert k v rest

/-- First-match association lookup, the model of Python `d.get(k)` /
`d[k]` on dictionaries represented as ordered association lists. -/
def dlookup {α : Type} (k : String) : List (String × α) → Option α
  | [] => none
  | p :: rest => if p.1 = k then some p.2 else dlookup k rest

/-- Model of building a Python dict from a sequence of key/value pairs
(later occurrences of a key overwrite the value, order of first insertion
is kept). -/
def pyDict {α : Type} (l : List (String × α)) : List (String × α) :=
  l.foldl (fun d p => dictInsert p.1 p.2 d) []

/-- Model of `d.setdefault(k, []).append(v)` on a dict of lists. -/
def bucketAppend {α : Type} (k : String) (v : α) :
    List (String × List α) → List (String × List α)
  | [] => [(k, [v])]
  | p :: rest => if p.1 = k then (p.1, p.2 ++ [v]) :: rest else p :: bucketAppend k v rest

/-- Lookup of a bucket, defaulting to the empty list (`d.get(k, [])`). -/
def dlookupD {α : Type} (k : String) (d : List (String × List α)) : List α :=
  (dlookup k d).getD []

/-- The key sequence of an association-list dictionary. -/
def dKeys {α : Type} (d : List (String × α)) : List String := d.map (·.1)

/-- Python `len(s)` on strings counts code points, which is the length of
the character list. -/
def strLen (s : String) : Nat := s.data.length

/-- Model of Python `s.startswith(p)`. -/
def strStarts (s p : String) : Bool := s.data.take p.data.length = p.data

/-- Model of the Python slice `s[n:]` (by code points). -/
def strDropN (s : String) (n : Nat) : String := ⟨s.data.drop n⟩

/-- Model of Python `s.replace(c, '')` for a one-character pattern:
remove every occurrence of the character. -/
def removeChar (c : Char) (s : String) : String := ⟨s.data.filter (· ≠ c)⟩

/-- Auxiliary fuel-driven worker for `replaceAllStr`. -/
def replaceAllAux (pat : List Char) : Nat → List Char → List Char
  | _, [] => []
  | 0, l => l
  | fuel + 1, c :: rest =>
    if pat ≠ [] ∧ (c :: rest).take pat.length = pat then
      replaceAllAux pat fuel ((c :: rest).drop pat.length)
    else
      c :: replaceAllAux pat fuel rest

/-- Model of Python `s.replace(p, '')` for a non-empty pattern `p`:
delete every non-overlapping occurrence, scanning left to right. -/
def replaceAllStr (s pat : String) : String :=
  ⟨replaceAllAux pat.data s.data.length s.data⟩

/-- Model of Python `p in s` substring containment. -/
def strHasSub (pat : String) : List Char → Bool
  | [] => pat.data = []
  | c :: rest => ((c :: rest).take pat.data.length = pat.data) || strHasSub pat rest

/-- Model of Python `s.strip()`: drop whitespace from both ends. -/
def pyStrip (s : String) : String :=
  ⟨((s.data.dropWhile (·.isWhitespace)).reverse.dropWhile (·.isWhitespace)).reverse⟩

/-- Model of Python `s.rstrip(':')`: drop trailing colon characters. -/
def rstripColon (s : String) : String :=
  ⟨(s.data.reverse.dropWhile (· = ':')).reverse⟩

/-- Little-endian decimal digits of a natural number, with explicit fuel so
that the definition is structurally recursive and kernel-computable. -/
def natDigitsAux : Nat → Nat → List Nat
  | _, 0 => []
  | 0, n => [n % 10]
  | fuel + 1, n => (n % 10) :: natDigitsAux fuel (n / 10)

/-- Character of a single decimal digit. -/
def decDigitChar (d : Nat) : Char := Char.ofNat (48 + d)

/-- Decimal rendering of a natural number, the model of Python string
interpolation of a non-negative integer. -/
def natStr (n : Nat) : String :=
  if n = 0 then "0" else ⟨((natDigitsAux n n).map decDigitChar).reverse⟩

/-- Reading the little-endian digit list back, used to show `natStr` is
injective. -/
def unDigits : List Nat → Nat
  | [] => 0
  | d :: ds => d + 10 * unDigits ds

/-- Model of Python `int(s)` on a string of decimal digits. -/
def pyIntOf (s : String) : Nat :=
  s.data.foldl (fun a c => a * 10 + (c.toNat - 48)) 0

/-- Model of the character-level Python `c.islower()` test used on the
first character of section labels (ASCII range; the section names of the
data sets are ASCII). -/
def pyCharIsLower (c : Char) : Bool := c.isLower

/-- Model of the character-level Python `c.isalpha()` test (ASCII range). -/
def pyCharIsAlpha (c : Char) : Bool := c.isAlpha

/-- Worker for `pyTitle`: the flag records whether the previous character
was alphabetic (i.e. whether we are inside a word). -/
def pyTitleAux : Bool → List Char → List Char
  | _, [] => []
  | prevAlpha, c :: rest =>
    (if pyCharIsAlpha c then (if prevAlpha then c.toLower else c.toUpper) else c) ::
      pyTitleAux (pyCharIsAlpha c) rest

/-- Model of Python `s.title()`: the first character of every maximal run
of letters is upper-cased, the rest of the run lower-cased, other
characters are kept. -/
def pyTitle (s : String) : String := ⟨pyTitleAux false s.data⟩

/-- Model of the string-level Python `s.islower()` predicate (the words of
the specification): the string has at least one cased character and every
cased character is lower-case.  Used only to state the claim; the source
code never calls it. -/
def pyStrIslower (s : String) : Bool :=
  s.data.any pyCharIsAlpha && s.data.all (fun c => !pyCharIsAlpha c || c.isLower)

/-- The label normalisation expression shared by the HS, HTS and Canadian
generators: `name.title() if name[0].islower() else name`.  On the empty
string the source raises `IndexError`; the embedding returns the string
unchanged and all theorems about it assume a non-empty label. -/
def normalizeLabel (s : String) : String :=
  match s.data with
  | [] => s
  | c :: _ => if pyCharIsLower c then pyTitle s else s

/-- Tree nodes of the produced documents.  The `children` field is `none`
when the underlying Python dict has no `children` key and `some cs` when it
maps `children` to the list `cs` (possibly empty before cleaning). -/
inductive TNode : Type where
  | mk (nid code nm ty : String) (children : Option (List TNode)) : TNode

/-- The identifier of a node. -/
def TNode.nid : TNode → String
  | .mk i _ _ _ _ => i

/-- The code of a node. -/
def TNode.code : TNode → String
  | .mk _ c _ _ _ => c

/-- The display name of a node. -/
def TNode.nm : TNode → String
  | .mk _ _ n _ _ => n

/-- The type tag of a node. -/
def TNode.ty : TNode → String
  | .mk _ _ _ t _ => t

/-- The children field of a node. -/
def TNode.children : TNode → Option (List TNode)
  | .mk _ _ _ _ ch => ch

mutual
/-- All identifiers of a node and its descendants, in pre-order: the model
of `collect_ids` of `generate_taxonomy2` applied to a single node. -/
def nodeIds : TNode → List String
  | .mk i _ _ _ none => [i]
  | .mk i _ _ _ (some cs) => i :: forestIds cs
/-- All identifiers of a forest, in pre-order: the model of `collect_ids`. -/
def forestIds : List TNode → List String
  | [] => []
  | t :: ts => nodeIds t ++ forestIds ts
end

mutual
/-- All codes of a node and its descendants, in pre-order. -/
def nodeCodes : TNode → List String
  | .mk _ c _ _ none => [c]
  | .mk _ c _ _ (some cs) => c :: forestCodes cs
/-- All codes of a forest, in pre-order. -/
def forestCodes : List TNode → List String
  | [] => []
  | t :: ts => nodeCodes t ++ forestCodes ts
end

mutual
/-- Codes of all nodes that are not `section` nodes (the specification's
top-level group markers), in pre-order. -/
def nodeCodesNoSec : TNode → List String
  | .mk _ c _ ty none => if ty = "section" then [] else [c]
  | .mk _ c _ ty (some cs) =>
    (if ty = "section" then [] else [c]) ++ forestCodesNoSec cs
/-- Codes of all non-`section` nodes of a forest, in pre-order. -/
def forestCodesNoSec : List TNode → List String
  | [] => []
  | t :: ts => nodeCodesNoSec t ++ forestCodesNoSec ts
end

mutual
/-- The model of the `clean_tree` helper that every generator defines:
recursively delete `children` fields holding an empty list. -/
def cleanN : TNode → TNode
  | .mk i c n t none => .mk i c n t none
  | .mk i c n t (some cs) =>
    if cs.isEmpty then .mk i c n t none else .mk i c n t (some (cleanF cs))
/-- `clean_tree` on a forest. -/
def cleanF : List TNode → List TNode
  | [] => []
  | t :: ts => cleanN t :: cleanF ts
end

mutual
/-- `true` when neither the node nor any descendant has a `children` field
holding an empty sequence. -/
def noEmptyN : TNode → Bool
  | .mk _ _ _ _ none => true
  | .mk _ _ _ _ (some cs) => !cs.isEmpty && noEmptyF cs
/-- `noEmptyN` over a forest. -/
def noEmptyF : List TNode → Bool
  | [] => true
  | t :: ts => noEmptyN t && noEmptyF ts
end

/-- A lookup entry of the per-taxonomy flat lookup documents
(`code`, `description`, `section`, `sectionName`, `level`, `type`). -/
structure LkEntry : Type where
  code : String
  descr : String
  sect : String
  sectName : String
  level : Nat
  ty : String
deriving DecidableEq

/-- A raw HS code row as read from `hs-codes.csv`
(fields `level`, `hscode`, `description`, `section`, `parent`). -/
structure HsRow : Type where
  level : String
  hscode : String
  descr : String
  sect : String
  parent : String
deriving DecidableEq

/-- The largest index `j < i` among the enumerated rows satisfying `p`:
the model of looking a code up in one of the mutable `*_nodes` maps of
`generate_hs` (a later row with the same code overwrites the map entry, so
a lookup sees the most recent matching row).  The input list must be in
ascending index order, which every `List.enum`-derived list is. -/
def lastIdxBefore {α : Type} (l : List (Nat × α)) (i : Nat) (p : α → Bool) : Option Nat :=
  l.foldl (fun acc q => if q.1 < i ∧ p q.2 then some q.1 else acc) none

/-- The chapter rows (`level == '2'`) of the HS input, enumerated. -/
def hsChapterRows (rows : List HsRow) : List (Nat × HsRow) :=
  rows.enum.filter (fun p => p.2.level = "2")

/-- The heading rows (`level == '4'`) of the HS input, enumerated. -/
def hsHeadingRows (rows : List HsRow) : List (Nat × HsRow) :=
  rows.enum.filter (fun p => p.2.level = "4")

/-- The subheading rows (`level == '6' or level == '5'`), enumerated. -/
def hsSubRows (rows : List HsRow) : List (Nat × HsRow) :=
  rows.enum.filter (fun p => p.2.level = "6" ∨ p.2.level = "5")

/-- A subheading node of the HS tree. -/
def hsSubNode (r : HsRow) : TNode :=
  .mk ("hs-" ++ r.hscode) r.hscode r.descr "subheading" none

/-- A heading node of the HS tree: its children are the subheading rows
whose `parent` resolved to this heading row in `heading_nodes` at the time
they were processed. -/
def hsHeadingNode (rows : List HsRow) (j : Nat) (r : HsRow) : TNode :=
  .mk ("hs-" ++ r.hscode) r.hscode r.descr "heading"
    (some (((hsSubRows rows).filter
      (fun p => lastIdxBefore (hsHeadingRows rows) p.1 (fun h => h.hscode = p.2.parent)
        = some j)).map (fun p => hsSubNode p.2)))

/-- A chapter node of the HS tree, with the heading rows resolved to it. -/
def hsChapterNode (rows : List HsRow) (j : Nat) (r : HsRow) : TNode :=
  .mk ("hs-" ++ r.hscode) r.hscode r.descr "chapter"
    (some (((hsHeadingRows rows).filter
      (fun p => lastIdxBefore (hsChapterRows rows) p.1 (fun h => h.hscode = p.2.parent)
        = some j)).map (fun p => hsHeadingNode rows p.1 p.2)))

/-- The HS tree before cleaning: one section root per entry of the section
dictionary, holding the chapter rows whose `section` field names it. -/
def hsForest (sections : List (String × String)) (rows : List HsRow) : List TNode :=
  (pyDict sections).map (fun q =>
    .mk ("hs-section-" ++ q.1) q.1 (normalizeLabel q.2) "section"
      (some (((hsChapterRows rows).filter (fun p => p.2.sect = q.1)).map
        (fun p => hsChapterNode rows p.1 p.2))))

/-- The published HS tree document: the forest after `clean_tree`. -/
def hsTree (sections : List (String × String)) (rows : List HsRow) : List TNode :=
  cleanF (hsForest sections rows)

/-- The `level_map` of `generate_hs`, with default `'unknown'`. -/
def hsLevelType (lv : String) : String :=
  if lv = "2" then "chapter"
  else if lv = "4" then "heading"
  else if lv = "5" ∨ lv = "6" then "subheading"
  else "unknown"

/-- The HS flat lookup: built directly from the input rows (not from the
tree), one dict assignment per row. -/
def hsLookup (sections : List (String × String)) (rows : List HsRow) :
    List (String × LkEntry) :=
  rows.foldl (fun d r =>
    dictInsert r.hscode
      ⟨r.hscode, r.descr, r.sect, (dlookup r.sect (pyDict sections)).getD "",
        pyIntOf r.level, hsLevelType r.level⟩ d) []

/-- A raw CN row (fields `cn`, `dashes`, `description`; `cnkey` and `su`
are never used by the tree or lookup construction). -/
structure CnRow : Type where
  cn : String
  dashes : String
  descr : String
deriving DecidableEq

/-- Consume exactly `n` decimal digits. -/
def takeDigits : Nat → List Char → Option (List Char)
  | 0, l => some l
  | _ + 1, [] => none
  | n + 1, c :: rest => if c.isDigit then takeDigits n rest else none

/-- Consume one-or-more whitespace characters (`\s+`). -/
def takeWs1 : List Char → Option (List Char)
  | [] => none
  | c :: rest =>
    if c.isWhitespace then some (rest.dropWhile (·.isWhitespace)) else none

/-- Consume one-or-more decimal digits (`\d+`). -/
def takeDigits1 : List Char → Option (List Char)
  | [] => none
  | c :: rest => if c.isDigit then some (rest.dropWhile (·.isDigit)) else none

/-- Roman-numeral characters accepted by the CN section pattern. -/
def romanChars : List Char := ['I', 'V', 'X']

/-- Consume one-or-more characters of `[IVX]+`. -/
def takeRoman1 : List Char → Option (List Char)
  | [] => none
  | c :: rest =>
    if c ∈ romanChars then some (rest.dropWhile (· ∈ romanChars)) else none

/-- Consume one literal dash of `[-–]`. -/
def takeDash : List Char → Option (List Char)
  | [] => none
  | c :: rest => if c = '-' ∨ c = '–' then some rest else none

/-- Consume a literal character sequence. -/
def takeLit (pat : List Char) (l : List Char) : Option (List Char) :=
  if l.take pat.length = pat then some (l.drop pat.length) else none

/-- Full match of `^[IVX]+$`. -/
def isRomanStr (s : String) : Bool :=
  !s.data.isEmpty && s.data.all (· ∈ romanChars)

/-- Full match of `^\d{n}$`. -/
def isDigitsN (n : Nat) (s : String) : Bool :=
  s.data.length = n && s.data.all (·.isDigit)

/-- Full match of `^\d{4}\s+\d{2}$` (the 6-digit CN subheading format). -/
def isCn6 (s : String) : Bool :=
  match takeDigits 4 s.data with
  | none => false
  | some r1 =>
    match takeWs1 r1 with
    | none => false
    | some r2 =>
      match takeDigits 2 r2 with
      | none => false
      | some r3 => r3.isEmpty

/-- Full match of `^\d{4}\s+\d{2}\s+\d{2}$` (the 8-digit CN code format). -/
def isCn8 (s : String) : Bool :=
  match takeDigits 4 s.data with
  | none => false
  | some r1 =>
    match takeWs1 r1 with
    | none => false
    | some r2 =>
      match takeDigits 2 r2 with
      | none => false
      | some r3 =>
        match takeWs1 r3 with
        | none => false
        | some r4 =>
          match takeDigits 2 r4 with
          | none => false
          | some r5 => r5.isEmpty

/-- Strip the `^SECTION\s+[IVX]+\s*[-–]\s*` header from a CN section name,
the model of the corresponding `re.sub` call. -/
def stripSecHeader (s : String) : String :=
  match takeLit "SECTION".data s.data with
  | none => s
  | some r1 =>
    match takeWs1 r1 with
    | none => s
    | some r2 =>
      match takeRoman1 r2 with
      | none => s
      | some r3 =>
        match takeDash (r3.dropWhile (·.isWhitespace)) with
        | none => s
        | some r4 => ⟨r4.dropWhile (·.isWhitespace)⟩

/-- Strip the `^CHAPTER\s+\d+\s*[-–]\s*` header from a CN chapter name. -/
def stripChapHeader (s : String) : String :=
  match takeLit "CHAPTER".data s.data with
  | none => s
  | some r1 =>
    match takeWs1 r1 with
    | none => s
    | some r2 =>
      match takeDigits1 r2 with
      | none => s
      | some r3 =>
        match takeDash (r3.dropWhile (·.isWhitespace)) with
        | none => s
        | some r4 => ⟨r4.dropWhile (·.isWhitespace)⟩

/-- The classification a CN row receives from the cascade of regular
expression tests of `generate_cn`, in source order. -/
inductive CnKind : Type where
  | title | sec | chap | head | sub6 | cn8 | other
deriving DecidableEq

/-- Classify one CN row exactly as the `generate_cn` loop does. -/
def cnKind (r : CnRow) : CnKind :=
  if r.cn = "" ∧ r.dashes = "" ∧ strHasSub "COMBINED NOMENCLATURE" r.descr.data then .title
  else if r.cn ≠ "" ∧ isRomanStr r.cn then .sec
  else if r.cn ≠ "" ∧ isDigitsN 2 r.cn then .chap
  else if r.cn ≠ "" ∧ isDigitsN 4 r.cn then .head
  else if r.cn ≠ "" ∧ isCn6 r.cn then .sub6
  else if r.cn ≠ "" ∧ isCn8 r.cn then .cn8
  else .other

/-- `clean_cn`: the CN code with blanks removed. -/
def cnClean (r : CnRow) : String := removeChar ' ' r.cn

/-- The enumerated CN rows of one kind. -/
def cnRowsOf (k : CnKind) (rows : List CnRow) : List (Nat × CnRow) :=
  rows.enum.filter (fun p => cnKind p.2 = k)

/-- The section row a chapter at index `i` attaches to: `current_section`
always names the most recent section row, and `section_nodes` maps it to
that row's node. -/
def cnChapParent (rows : List CnRow) (i : Nat) : Option Nat :=
  lastIdxBefore (cnRowsOf .sec rows) i (fun _ => true)

/-- The chapter row a 4-digit heading attaches to (`chapter_nodes` holds
the most recent chapter row per 2-digit code). -/
def cnHeadParent (rows : List CnRow) (i : Nat) (r : CnRow) : Option Nat :=
  lastIdxBefore (cnRowsOf .chap rows) i (fun c => c.cn = ⟨r.cn.data.take 2⟩)

/-- The heading row a 6-digit subheading attaches to. -/
def cnSub6Parent (rows : List CnRow) (i : Nat) (r : CnRow) : Option Nat :=
  lastIdxBefore (cnRowsOf .head rows) i (fun h => h.cn = ⟨(cnClean r).data.take 4⟩)

/-- The subheading row an 8-digit code attaches to, when one exists. -/
def cn8SubParent (rows : List CnRow) (i : Nat) (r : CnRow) : Option Nat :=
  lastIdxBefore (cnRowsOf .sub6 rows) i (fun h => cnClean h = ⟨(cnClean r).data.take 6⟩)

/-- The heading row an 8-digit code falls back to when no subheading
matched. -/
def cn8HeadParent (rows : List CnRow) (i : Nat) (r : CnRow) : Option Nat :=
  if (cn8SubParent rows i r).isSome then none
  else lastIdxBefore (cnRowsOf .head rows) i (fun h => h.cn = ⟨(cnClean r).data.take 4⟩)

/-- An 8-digit CN leaf node (no `children` key). -/
def cn8Node (r : CnRow) : TNode :=
  .mk ("cn-" ++ cnClean r) (cnClean r) r.descr "cn8" none

/-- A 6-digit CN subheading node with the 8-digit rows that resolved to it. -/
def cnSub6Node (rows : List CnRow) (j : Nat) (r : CnRow) : TNode :=
  .mk ("cn-" ++ cnClean r) (cnClean r) r.descr "subheading"
    (some (((cnRowsOf .cn8 rows).filter
      (fun p => cn8SubParent rows p.1 p.2 = some j)).map (fun p => cn8Node p.2)))

/-- A 4-digit CN heading node: its children are the 6-digit rows that
resolved to it and the 8-digit rows that fell back to it, in row order. -/
def cnHeadNode (rows : List CnRow) (j : Nat) (r : CnRow) : TNode :=
  .mk ("cn-" ++ r.cn) r.cn r.descr "heading"
    (some ((rows.enum.filter (fun p =>
        (cnKind p.2 = .sub6 ∧ cnSub6Parent rows p.1 p.2 = some j) ∨
        (cnKind p.2 = .cn8 ∧ cn8HeadParent rows p.1 p.2 = some j))).map
      (fun p => if cnKind p.2 = .sub6 then cnSub6Node rows p.1 p.2 else cn8Node p.2)))

/-- A 2-digit CN chapter node with its headings. -/
def cnChapNode (rows : List CnRow) (j : Nat) (r : CnRow) : TNode :=
  .mk ("cn-" ++ r.cn) r.cn (stripChapHeader r.descr) "chapter"
    (some (((cnRowsOf .head rows).filter
      (fun p => cnHeadParent rows p.1 p.2 = some j)).map
      (fun p => cnHeadNode rows p.1 p.2)))

/-- A CN section root node with its chapters. -/
def cnSecNode (rows : List CnRow) (j : Nat) (r : CnRow) : TNode :=
  .mk ("cn-section-" ++ r.cn) r.cn (stripSecHeader r.descr) "section"
    (some (((cnRowsOf .chap rows).filter
      (fun p => cnChapParent rows p.1 = some j)).map
      (fun p => cnChapNode rows p.1 p.2)))

/-- The CN forest before cleaning: the section rows in order. -/
def cnForest (rows : List CnRow) : List TNode :=
  (cnRowsOf .sec rows).map (fun p => cnSecNode rows p.1 p.2)

/-- The published CN tree document. -/
def cnTree (rows : List CnRow) : List TNode := cleanF (cnForest rows)

/-- The `level_map` of the CN `add_to_lookup`, with default `0`. -/
def cnLevelOf (ty : String) : Nat :=
  if ty = "section" then 1
  else if ty = "chapter" then 2
  else if ty = "heading" then 4
  else if ty = "subheading" then 6
  else if ty = "cn8" then 8
  else 0

mutual
/-- One step of the CN `add_to_lookup` walk.  The section context is
rebound by `section`-typed nodes and, being a loop-local variable in the
source, persists for the following siblings, so it is returned. -/
def cnLookN (d : List (String × LkEntry)) (sec sn : String) :
    TNode → (List (String × LkEntry) × String × String)
  | .mk _ c nm ty och =>
    let sec' := if ty = "section" then c else sec
    let sn' := if ty = "section" then nm else sn
    let d' := dictInsert c ⟨c, nm, sec', sn', cnLevelOf ty, ty⟩ d
    match och with
    | none => (d', sec', sn')
    | some cs => (cnLookF d' sec' sn' cs, sec', sn')
/-- The CN `add_to_lookup` walk over a sibling list. -/
def cnLookF (d : List (String × LkEntry)) (sec sn : String) :
    List TNode → List (String × LkEntry)
  | [] => d
  | t :: ts =>
    let r := cnLookN d sec sn t
    cnLookF r.1 r.2.1 r.2.2 ts
end

/-- The published CN flat lookup: the walk over the cleaned tree.  Note
that, unlike the HTS and Canadian variants of `add_to_lookup`, the CN
variant inserts an entry for every node, section nodes included. -/
def cnLookup (rows : List CnRow) : List (String × LkEntry) :=
  cnLookF [] "" "" (cnTree rows)

/-- A raw HTS JSON item (`htsno`, `indent`, `description`, `superior`;
`indent` is already converted by `int(...)` and `superior` stands for the
truthiness of the raw field). -/
structure HtsItem : Type where
  htsno : String
  indent : Nat
  descr : String
  superior : Bool
deriving DecidableEq

/-- Where a finished stack node is delivered: to the frame below it on the
stack, to a section root's children, or nowhere (its section was unknown,
so the Python code never appended it to any list). -/
inductive HtsTarget : Type where
  | below | toSec (s : String) | discard
deriving DecidableEq

/-- A pending stack entry of the indentation-stack assembly: the
`(indent, node)` pair of the source, with the children accumulated so far
and the recorded delivery target.  The source mutates the node dicts in
place; the embedding finishes a node when it is popped. -/
structure HtsFrame : Type where
  indent : Nat
  nid : String
  code : String
  nm : String
  ty : String
  target : HtsTarget
  kids : List TNode

/-- Finish a frame into a tree node (pushed frames always carry a
`children` key). -/
def htsFinish (f : HtsFrame) : TNode := .mk f.nid f.code f.nm f.ty (some f.kids)

/-- Deliver a finished node to its recorded target. -/
def htsDispatch (n : TNode) (tg : HtsTarget) (stack : List HtsFrame)
    (secCh : List (String × List TNode)) :
    List HtsFrame × List (String × List TNode) :=
  match tg with
  | .below =>
    match stack with
    | f :: rest => (⟨f.indent, f.nid, f.code, f.nm, f.ty, f.target, f.kids ++ [n]⟩ :: rest, secCh)
    | [] => ([], secCh)
  | .toSec s => (stack, bucketAppend s n secCh)
  | .discard => (stack, secCh)

/-- The pop loop `while stack and stack[-1][0] >= indent: stack.pop()`,
fuelled by the stack length. -/
def htsPopAux (ind : Nat) : Nat → List HtsFrame → List (String × List TNode) →
    List HtsFrame × List (String × List TNode)
  | 0, st, secCh => (st, secCh)
  | _ + 1, [], secCh => ([], secCh)
  | fuel + 1, f :: rest, secCh =>
    if ind ≤ f.indent then
      let r := htsDispatch (htsFinish f) f.target rest secCh
      htsPopAux ind fuel r.1 r.2
    else (f :: rest, secCh)

/-- The running state of the HTS item loop: the stack, the per-section
children accumulators, and `current_chapter`. -/
structure HtsState : Type where
  stack : List HtsFrame
  secCh : List (String × List TNode)
  curCh : Option String

/-- The `chapter_to_section` table of `generate_hts`, as an association
list (`.get(key, 'I')` is modelled with `dlookup` and `getD "I"`). -/
def chapterToSection : List (String × String) :=
  [("01", "I"), ("02", "I"), ("03", "I"), ("04", "I"), ("05", "I"),
   ("06", "II"), ("07", "II"), ("08", "II"), ("09", "II"), ("10", "II"),
   ("11", "II"), ("12", "II"), ("13", "II"), ("14", "II"),
   ("15", "III"),
   ("16", "IV"), ("17", "IV"), ("18", "IV"), ("19", "IV"), ("20", "IV"),
   ("21", "IV"), ("22", "IV"), ("23", "IV"), ("24", "IV"),
   ("25", "V"), ("26", "V"), ("27", "V"),
   ("28", "VI"), ("29", "VI"), ("30", "VI"), ("31", "VI"), ("32", "VI"),
   ("33", "VI"), ("34", "VI"), ("35", "VI"), ("36", "VI"), ("37", "VI"), ("38", "VI"),
   ("39", "VII"), ("40", "VII"),
   ("41", "VIII"), ("42", "VIII"), ("43", "VIII"),
   ("44", "IX"), ("45", "IX"), ("46", "IX"),
   ("47", "X"), ("48", "X"), ("49", "X"),
   ("50", "XI"), ("51", "XI"), ("52", "XI"), ("53", "XI"), ("54", "XI"),
   ("55", "XI"), ("56", "XI"), ("57", "XI"), ("58", "XI"), ("59", "XI"),
   ("60", "XI"), ("61", "XI"), ("62", "XI"), ("63", "XI"),
   ("64", "XII"), ("65", "XII"), ("66", "XII"), ("67", "XII"),
   ("68", "XIII"), ("69", "XIII"), ("70", "XIII"),
   ("71", "XIV"),
   ("72", "XV"), ("73", "XV"), ("74", "XV"), ("75", "XV"), ("76", "XV"),
   ("78", "XV"), ("79", "XV"), ("80", "XV"), ("81", "XV"), ("82", "XV"), ("83", "XV"),
   ("84", "XVI"), ("85", "XVI"),
   ("86", "XVII"), ("87", "XVII"), ("88", "XVII"), ("89", "XVII"),
   ("90", "XVIII"), ("91", "XVIII"), ("92", "XVIII"),
   ("93", "XIX"),
   ("94", "XX"), ("95", "XX"), ("96", "XX"),
   ("97", "XXI"),
   ("98", "XXII"), ("99", "XXII")]

/-- The node type assigned from the cleaned code length. -/
def htsTypeOf (codeLen : Nat) : String :=
  if codeLen = 4 then "heading"
  else if codeLen = 6 then "subheading"
  else if codeLen = 8 then "tariff_8"
  else if codeLen = 10 then "tariff_10"
  else "group"

/-- One iteration of the `for item in raw` loop of `generate_hts`.  The
Python `hash` builtin (whose value is seeded per interpreter process) is
the explicit parameter `hashF`. -/
def htsStep (hashF : String → Nat) (st : HtsState) (item : HtsItem) : HtsState :=
  let htsno := pyStrip item.htsno
  let desc := pyStrip item.descr
  if desc = "" then st
  else
    let cleanDesc := pyStrip (rstripColon desc)
    let cleanCode := removeChar '.' htsno
    let codeLen := strLen cleanCode
    let ty := htsTypeOf codeLen
    let curCh1 := if codeLen = 4 then some (⟨cleanCode.data.take 2⟩ : String) else st.curCh
    let nid := if cleanCode ≠ "" then "hts-" ++ cleanCode
      else "hts-group-" ++ natStr st.stack.length ++ "-" ++ natStr (hashF desc % 100000)
    let capable := item.superior || ty = "heading" || ty = "subheading" || ty = "group"
    let r := htsPopAux item.indent st.stack.length st.stack st.secCh
    match r.1 with
    | f :: rest =>
      if capable then
        ⟨⟨item.indent, nid, htsno, cleanDesc, ty, .below, []⟩ :: f :: rest, r.2, curCh1⟩
      else
        ⟨⟨f.indent, f.nid, f.code, f.nm, f.ty, f.target,
            f.kids ++ [TNode.mk nid htsno cleanDesc ty none]⟩ :: rest, r.2, curCh1⟩
    | [] =>
      let curCh2 := if curCh1 = none ∧ 2 ≤ codeLen
        then some (⟨cleanCode.data.take 2⟩ : String) else curCh1
      let chap := match curCh2 with
        | some c => c
        | none => (⟨cleanCode.data.take 2⟩ : String)
      let sect := (dlookup chap chapterToSection).getD "I"
      if (dlookup sect r.2).isSome then
        if capable then ⟨[⟨item.indent, nid, htsno, cleanDesc, ty, .toSec sect, []⟩], r.2, curCh2⟩
        else ⟨[], bucketAppend sect (TNode.mk nid htsno cleanDesc ty none) r.2, curCh2⟩
      else
        if capable then ⟨[⟨item.indent, nid, htsno, cleanDesc, ty, .discard, []⟩], r.2, curCh2⟩
        else ⟨[], r.2, curCh2⟩

/-- The section list of `generate_hts`: the section dictionary (names
normalised exactly as in the source), followed by the US-specific `XXII`
section when absent. -/
def htsSecAll (sections : List (String × String)) : List (String × String) :=
  let d := (pyDict sections).map (fun q => (q.1, normalizeLabel q.2))
  if (dlookup "XXII" d).isSome then d
  else d ++ [("XXII", "Special Classification Provisions")]

/-- The HTS forest before cleaning: every item folded through the stack
algorithm, the stack drained (in the source the nodes were attached on
creation; draining flushes the same children into their parents), and the
section roots assembled in creation order. -/
def htsBuild (hashF : String → Nat) (sections : List (String × String))
    (items : List HtsItem) : List TNode :=
  let secAll := htsSecAll sections
  let st0 : HtsState := ⟨[], secAll.map (fun q => (q.1, ([] : List TNode))), none⟩
  let st1 := items.foldl (htsStep hashF) st0
  let fin := htsPopAux 0 st1.stack.length st1.stack st1.secCh
  secAll.map (fun q =>
    TNode.mk ("hts-section-" ++ q.1) q.1 q.2 "section" (some (dlookupD q.1 fin.2)))

/-- The published HTS tree document. -/
def htsTree (hashF : String → Nat) (sections : List (String × String))
    (items : List HtsItem) : List TNode :=
  cleanF (htsBuild hashF sections items)

mutual
/-- One step of the HTS `add_to_lookup` walk: unlike the CN variant it
skips section nodes and empty codes, and levels come from the cleaned
code length. -/
def htsLookN (d : List (String × LkEntry)) (sec sn : String) :
    TNode → (List (String × LkEntry) × String × String)
  | .mk _ c nm ty och =>
    let sec' := if ty = "section" then c else sec
    let sn' := if ty = "section" then nm else sn
    let d' := if c ≠ "" ∧ ty ≠ "section" then
        dictInsert c ⟨c, nm, sec', sn', strLen (removeChar '.' c), ty⟩ d
      else d
    match och with
    | none => (d', sec', sn')
    | some cs => (htsLookF d' sec' sn' cs, sec', sn')
/-- The HTS `add_to_lookup` walk over a sibling list. -/
def htsLookF (d : List (String × LkEntry)) (sec sn : String) :
    List TNode → List (String × LkEntry)
  | [] => d
  | t :: ts =>
    let r := htsLookN d sec sn t
    htsLookF r.1 r.2.1 r.2.2 ts
end

/-- The published HTS flat lookup. -/
def htsLookup (hashF : String → Nat) (sections : List (String × String))
    (items : List HtsItem) : List (String × LkEntry) :=
  htsLookF [] "" "" (htsTree hashF sections items)

/-- A raw row of the `CPC21-HS2017.csv` concordance table. -/
structure ConcRow : Type where
  hs2017 : String
  hsPartS : String
  cpcV21 : String
  cpcPartS : String
deriving DecidableEq

/-- One multimap entry of the exact concordance (the flag pair together
with the code of the opposite side). -/
structure ConcEntry : Type where
  hsP : Bool
  cpcP : Bool
  code : String
deriving DecidableEq

/-- The canonical (dot-stripped) HS key of a concordance row. -/
def concHsKey (r : ConcRow) : String := removeChar '.' (pyStrip r.hs2017)

/-- The CPC key of a concordance row. -/
def concCpcKey (r : ConcRow) : String := pyStrip r.cpcV21

/-- The entry appended to `hs_to_cpc[hs_code]` for one row. -/
def concFwdEntry (r : ConcRow) : ConcEntry :=
  ⟨pyStrip r.hsPartS = "1", pyStrip r.cpcPartS = "1", concCpcKey r⟩

/-- The entry appended to `cpc_to_hs[cpc_code]` for one row. -/
def concRevEntry (r : ConcRow) : ConcEntry :=
  ⟨pyStrip r.hsPartS = "1", pyStrip r.cpcPartS = "1", concHsKey r⟩

/-- `hs_to_cpc`: the forward multimap of `generate_concordance`. -/
def concFwd (rows : List ConcRow) : List (String × List ConcEntry) :=
  rows.foldl (fun d r => bucketAppend (concHsKey r) (concFwdEntry r) d) []

/-- `cpc_to_hs`: the reverse multimap of `generate_concordance`. -/
def concRev (rows : List ConcRow) : List (String × List ConcEntry) :=
  rows.foldl (fun d r => bucketAppend (concCpcKey r) (concRevEntry r) d) []

/-- One `mappingInfo` record (`count` and `type`). -/
structure MapInfo : Type where
  count : Nat
  ty : String
deriving DecidableEq

/-- `mapping_info`: one record per forward key (prefixed `hs-`) and one per
reverse key (prefixed `cpc-`), classified `1:1` exactly on count one. -/
def concInfo (rows : List ConcRow) : List (String × MapInfo) :=
  (concFwd rows).map (fun p =>
    ("hs-" ++ p.1, (⟨p.2.length, if p.2.length = 1 then "1:1" else "1:N"⟩ : MapInfo))) ++
  (concRev rows).map (fun p =>
    ("cpc-" ++ p.1, (⟨p.2.length, if p.2.length = 1 then "1:1" else "1:N"⟩ : MapInfo)))

/-- The stop-word set of the fuzzy mapping generator. -/
def STOPWORDS : List String :=
  ["a", "an", "and", "or", "the", "of", "for", "to", "in", "on", "with",
   "by", "from", "not", "nor", "but", "at", "as", "is", "are", "was",
   "be", "been", "being", "have", "has", "had", "do", "does", "did",
   "other", "than", "its", "it", "their", "this", "that", "these", "those",
   "such", "including", "whether", "also", "etc", "nes", "nesoi"]

/-- The characters the Python regex class `\w` accepts (ASCII range). -/
def isWordChar (c : Char) : Bool := c.isAlphanum || c = '_'

/-- Split a character list on whitespace runs, dropping empty fragments:
the model of Python `str.split()` with no argument. -/
def splitWsAux : List Char → List Char → List (List Char)
  | acc, [] => if acc.isEmpty then [] else [acc.reverse]
  | acc, c :: rest =>
    if c.isWhitespace then
      if acc.isEmpty then splitWsAux [] rest else acc.reverse :: splitWsAux [] rest
    else splitWsAux (c :: acc) rest

/-- The `preprocess` helper of `generate_unspsc_hs_fuzzy_mapping`: lower
case, replace non-word non-space characters by blanks, split, and keep the
set of tokens that are neither stop words nor of length at most two. -/
def preprocess (s : String) : Finset String :=
  let lowered := s.data.map Char.toLower
  let subbed := lowered.map (fun c => if !isWordChar c ∧ !c.isWhitespace then ' ' else c)
  let words := (splitWsAux [] subbed).map (fun l => (⟨l⟩ : String))
  (words.filter (fun w => w ∉ STOPWORDS ∧ 2 < strLen w)).toFinset

/-- The `jaccard` helper: zero on an empty side, otherwise the ratio of
intersection and union sizes (exact rational in the embedding; the float
arithmetic of the source computes the same small-integer ratios up to
floating-point rounding). -/
def jaccard (s t : Finset String) : ℚ :=
  if s = ∅ ∨ t = ∅ then 0
  else if 0 < (s ∪ t).card then ((s ∩ t).card : ℚ) / ((s ∪ t).card : ℚ) else 0

/-- Round-half-to-even on rationals, the rounding mode of Python's
`round`. -/
def roundHalfEven (q : ℚ) : ℤ :=
  let f := ⌊q⌋
  let r := q - f
  if r < 1/2 then f
  else if 1/2 < r then f + 1
  else if f % 2 = 0 then f else f + 1

/-- `round(q, 3)`: the stored three-decimal similarity. -/
def pyRound3 (q : ℚ) : ℚ := (roundHalfEven (q * 1000) : ℚ) / 1000

/-- A fuzzy match record (`code`, rounded `similarity`); the same shape is
used in the forward and the reverse direction. -/
structure FMatch : Type where
  code : String
  sim : ℚ
deriving DecidableEq

/-- The word sets of the HS side, precomputed as in the source. -/
def hsWordSets (hsItems : List (String × String)) : List (String × Finset String) :=
  hsItems.map (fun p => (p.1, preprocess p.2))

/-- The unsorted match list one UNSPSC word set collects against every HS
candidate: kept iff the (unrounded) similarity reaches the 0.3 threshold,
storing the rounded similarity. -/
def fuzzyMatches (hsets : List (String × Finset String)) (uw : Finset String) :
    List FMatch :=
  hsets.filterMap (fun p =>
    if (3 : ℚ)/10 ≤ jaccard uw p.2 then some ⟨p.1, pyRound3 (jaccard uw p.2)⟩ else none)

/-- Stable insertion used to model Python's stable `sort(key=similarity,
reverse=True)`: a new element goes after every element of greater-or-equal
similarity, so elements of equal similarity keep their original order. -/
def insSimDesc (m : FMatch) : List FMatch → List FMatch
  | [] => [m]
  | x :: xs => if x.sim < m.sim then m :: x :: xs else x :: insSimDesc m xs

/-- The stable descending sort by similarity (extensionally equal to the
stable sort of the source). -/
def sortSimDesc (l : List FMatch) : List FMatch :=
  l.foldl (fun acc m => insSimDesc m acc) []

/-- The same stable insertion on index-annotated matches, used to express
the tie-breaking guarantee. -/
def insLexDesc (m : Nat × FMatch) : List (Nat × FMatch) → List (Nat × FMatch)
  | [] => [m]
  | x :: xs => if x.2.sim < m.2.sim then m :: x :: xs else x :: insLexDesc m xs

/-- The stable descending sort on index-annotated matches. -/
def sortEnumDesc (l : List (Nat × FMatch)) : List (Nat × FMatch) :=
  l.foldl (fun acc m => insLexDesc m acc) []

/-- The strict order a stable descending sort realises on annotated input:
greater similarity first, equal similarities by ascending original
position. -/
def lexAfter (a b : Nat × FMatch) : Prop :=
  b.2.sim < a.2.sim ∨ (a.2.sim = b.2.sim ∧ a.1 < b.1)

/-- The running pair of fuzzy maps (`unspsc_to_hs`, raw `hs_to_unspsc`). -/
structure FuzzySt : Type where
  fwd : List (String × List FMatch)
  rev : List (String × List FMatch)

/-- One iteration of the UNSPSC loop of
`generate_unspsc_hs_fuzzy_mapping`: skip empty word sets and empty match
lists, record the top three matches forward, and append the inverted pairs
to the raw reverse buckets. -/
def fuzzyStep (hsets : List (String × Finset String)) (st : FuzzySt)
    (item : String × String) : FuzzySt :=
  let uw := preprocess item.2
  if uw = ∅ then st
  else
    let ms := fuzzyMatches hsets uw
    if ms.isEmpty then st
    else
      let top := (sortSimDesc ms).take 3
      ⟨dictInsert item.1 top st.fwd,
        top.foldl (fun d m => bucketAppend m.code ⟨item.1, m.sim⟩ d) st.rev⟩

/-- The fuzzy maps after the whole UNSPSC loop (reverse still unsorted). -/
def fuzzyMapsRaw (hsets : List (String × Finset String))
    (uitems : List (String × String)) : FuzzySt :=
  uitems.foldl (fuzzyStep hsets) ⟨[], []⟩

/-- `unspsc_to_hs`: the published forward fuzzy mapping. -/
def fuzzyFwd (hsets : List (String × Finset String))
    (uitems : List (String × String)) : List (String × List FMatch) :=
  (fuzzyMapsRaw hsets uitems).fwd

/-- `hs_to_unspsc`: the published reverse fuzzy mapping, each bucket
re-sorted by similarity descending. -/
def fuzzyRev (hsets : List (String × Finset String))
    (uitems : List (String × String)) : List (String × List FMatch) :=
  (fuzzyMapsRaw hsets uitems).rev.map (fun p => (p.1, sortSimDesc p.2))

/-- The goods section codes (`{'0', ..., '4'}`) of `generate_taxonomy2`. -/
def goodsSecCodes : List String := ["0", "1", "2", "3", "4"]

mutual
/-- The identifier re-keying helper `reprefix_tree` / `reprefix_node_inplace`
of the composers: replace a leading namespace marker of every identifier
(the source deep-copies first; the embedding is pure). -/
def reprefixN (oldP newP : String) : TNode → TNode
  | .mk i c nm ty och =>
    .mk (if strStarts i oldP then newP ++ strDropN i (strLen oldP) else i) c nm ty
      (match och with
       | none => none
       | some cs => some (reprefixF oldP newP cs))
/-- `reprefix_tree` over a forest. -/
def reprefixF (oldP newP : String) : List TNode → List TNode
  | [] => []
  | t :: ts => reprefixN oldP newP t :: reprefixF oldP newP ts
end

/-- The suffix search loop of `make_unique_ids`
(`while f"...-d{n}" in used_ids: n += 1`), fuelled: with fuel
`used.length + 1` the search always ends on a fresh candidate. -/
def freshNumAux (used : List String) (base : String) : Nat → Nat → Nat
  | n, 0 => n
  | n, fuel + 1 =>
    if (base ++ "-d" ++ natStr n) ∈ used then freshNumAux used base (n + 1) fuel else n

/-- The disambiguated identifier `f"{id}-d{n}"` with the first free
`n ≥ 2`. -/
def muiFresh (used : List String) (i : String) : String :=
  i ++ "-d" ++ natStr (freshNumAux used i 2 (used.length + 1))

mutual
/-- `make_unique_ids` on one node: rename on collision, record the final
identifier in the running used set, then recurse into the children. -/
def muiN (used : List String) : TNode → (List String × TNode)
  | .mk i c nm ty och =>
    let i' := if i ∈ used then muiFresh used i else i
    let used1 := i' :: used
    match och with
    | none => (used1, .mk i' c nm ty none)
    | some cs =>
      let r := muiL used1 cs
      (r.1, .mk i' c nm ty (some r.2))
/-- `make_unique_ids` over a child list, threading the used set. -/
def muiL (used : List String) : List TNode → (List String × List TNode)
  | [] => (used, [])
  | t :: ts =>
    let r1 := muiN used t
    let r2 := muiL r1.1 ts
    (r2.1, r1.2 :: r2.2)
end

mutual
/-- `index_hts`: index every node of the HTS tree by its cleaned code
(empty codes are skipped, later nodes with the same cleaned code
overwrite). -/
def htsIndexN (d : List (String × TNode)) : TNode → List (String × TNode)
  | .mk i c nm ty och =>
    let clean := removeChar ' ' (removeChar '.' c)
    let d1 := if clean ≠ "" then dictInsert clean (.mk i c nm ty och) d else d
    match och with
    | none => d1
    | some cs => htsIndexF d1 cs
/-- `index_hts` over a forest. -/
def htsIndexF (d : List (String × TNode)) : List TNode → List (String × TNode)
  | [] => d
  | t :: ts => htsIndexF (htsIndexN d t) ts
end

/-- `extract_hts_for_hs`: direct 6-digit hit, zero-padded 8-digit hit, all
8-digit prefixed nodes, else all 10-digit prefixed nodes, in index
order. -/
def extractForHs (idx : List (String × TNode)) (hs : String) : List TNode :=
  match dlookup hs idx with
  | some n => [n]
  | none =>
    match dlookup (hs ++ "00") idx with
    | some n => [n]
    | none =>
      let m8 := (idx.filter (fun p => strStarts p.1 hs && strLen p.1 = 8)).map (·.2)
      if !m8.isEmpty then m8
      else (idx.filter (fun p => strStarts p.1 hs && strLen p.1 = 10)).map (·.2)

/-- Graft one extracted HTS node: re-key `hts-*` to `t2-hts-*`, then make
its identifiers unique against the running used set. -/
def graftOne (used : List String) (t : TNode) : List String × TNode :=
  muiN used (reprefixN "hts-" "t2-hts-" t)

/-- Graft a list of extracted nodes in order, threading the used set. -/
def graftMany (used : List String) : List TNode → (List String × List TNode)
  | [] => (used, [])
  | t :: ts =>
    let r1 := graftOne used t
    let r2 := graftMany r1.1 ts
    (r2.1, r1.2 :: r2.2)

/-- Collect the grafted children of one backbone leaf over all its
concordance codes. -/
def graftCodes (idx : List (String × TNode)) (used : List String) :
    List String → (List String × List TNode)
  | [] => (used, [])
  | h :: hs =>
    let r1 := graftMany used (extractForHs idx h)
    let r2 := graftCodes idx r1.1 hs
    (r2.1, r1.2 ++ r2.2)

mutual
/-- `attach_hts_detail` on one node: a node with children recurses (its
goods flag extended by one-character goods section codes), a leaf inside a
goods section receives the grafted detail as its new children when any was
found. -/
def attachN (conc : List (String × List ConcEntry)) (idx : List (String × TNode))
    (used : List String) (inGoods : Bool) : TNode → (List String × TNode)
  | .mk i c nm ty och =>
    let orig := replaceAllStr i "t2-"
    let goods := inGoods || (strLen orig = 1 && orig ∈ goodsSecCodes)
    match och with
    | some cs =>
      let r := attachF conc idx used goods cs
      (r.1, .mk i c nm ty (some r.2))
    | none =>
      if goods then
        let hsCodes := ((dlookup orig conc).getD []).map (·.code)
        let r := graftCodes idx used hsCodes
        if r.2.isEmpty then (r.1, .mk i c nm ty none)
        else (r.1, .mk i c nm ty (some r.2))
      else (used, .mk i c nm ty none)
/-- `attach_hts_detail` over a sibling list, threading the used set. -/
def attachF (conc : List (String × List ConcEntry)) (idx : List (String × TNode))
    (used : List String) (inGoods : Bool) : List TNode → (List String × List TNode)
  | [] => (used, [])
  | t :: ts =>
    let r1 := attachN conc idx used inGoods t
    let r2 := attachF conc idx r1.1 inGoods ts
    (r2.1, r1.2 :: r2.2)
end

/-- The re-keyed CPC backbone (`cpc-*` to `t2-*`). -/
def t2Base (cpcTree : List TNode) : List TNode := reprefixF "cpc-" "t2-" cpcTree

/-- The composed T2 tree: used identifiers seeded by `collect_ids` over the
re-keyed backbone, then `attach_hts_detail`. -/
def t2TreeOf (cpcTree : List TNode) (conc : List (String × List ConcEntry))
    (idx : List (String × TNode)) : List TNode :=
  let base := t2Base cpcTree
  (attachF conc idx (forestIds base) false base).2

/-- A T2 combined lookup entry: a plain lookup entry extended by the
`origin` tag and the optional `originalCode` back-reference. -/
structure T2Entry : Type where
  code : String
  descr : String
  sect : String
  sectName : String
  level : Nat
  ty : String
  origin : String
  origCode : Option String
deriving DecidableEq

/-- A backbone entry of the combined lookup (`dict(entry, origin='cpc')`). -/
def tagCpc (e : LkEntry) : T2Entry :=
  ⟨e.code, e.descr, e.sect, e.sectName, e.level, e.ty, "cpc", none⟩

mutual
/-- `add_hts_to_lookup` on one node: grafted nodes (identifier marked
`t2-hts-`) contribute one marker-prefixed entry unless the key is already
present; backbone nodes of one-character code rebind the section context,
which persists for the following siblings and is therefore returned. -/
def t2LookN (d : List (String × T2Entry)) (sec sn : String) :
    TNode → (List (String × T2Entry) × String × String)
  | .mk i c nm ty och =>
    if strStarts i "t2-hts-" then
      let clean := removeChar ' ' (removeChar '.' c)
      let key := "HTS" ++ clean
      let d1 := if (dlookup key d).isSome then d
        else dictInsert key ⟨c, nm, sec, sn, strLen clean, ty, "hts", some clean⟩ d
      match och with
      | none => (d1, sec, sn)
      | some cs => (t2LookF d1 sec sn cs, sec, sn)
    else
      let cpcCode := replaceAllStr i "t2-"
      let sec' := if strLen cpcCode = 1 then cpcCode else sec
      let sn' := if strLen cpcCode = 1 then nm else sn
      match och with
      | none => (d, sec', sn')
      | some cs => (t2LookF d sec' sn' cs, sec', sn')
/-- `add_hts_to_lookup` over a sibling list. -/
def t2LookF (d : List (String × T2Entry)) (sec sn : String) :
    List TNode → List (String × T2Entry)
  | [] => d
  | t :: ts =>
    let r := t2LookN d sec sn t
    t2LookF r.1 r.2.1 r.2.2 ts
end

/-- The combined T2 lookup: the tagged backbone lookup extended by the
grafted-entry walk. -/
def t2Lookup (cpcLk : List (String × LkEntry)) (tr : List TNode) :
    List (String × T2Entry) :=
  t2LookF (cpcLk.map (fun p => (p.1, tagCpc p.2))) "" "" tr

/-- The cleaned code of a node, as `add_hts_to_lookup` computes it. -/
def t2CleanCode (t : TNode) : String := removeChar ' ' (removeChar '.' t.code)

mutual
/-- All grafted nodes of a tree (identifier marked `t2-hts-`), in the
pre-order the lookup walk visits them. -/
def graftedN : TNode → List TNode
  | .mk i c nm ty och =>
    (if strStarts i "t2-hts-" then [.mk i c nm ty och] else []) ++
      (match och with
       | none => []
       | some cs => graftedF cs)
/-- All grafted nodes of a forest. -/
def graftedF : List TNode → List TNode
  | [] => []
  | t :: ts => graftedN t ++ graftedF ts
end

/-- The shape a grafted entry inserted by `add_hts_to_lookup` has, relative
to the node it came from. -/
def htsEntryOf (k : String) (e : T2Entry) (n : TNode) : Prop :=
  e.origin = "hts" ∧ k = "HTS" ++ t2CleanCode n ∧ e.origCode = some (t2CleanCode n) ∧
    e.code = n.code ∧ e.descr = n.nm ∧ e.ty = n.ty

theorem dlookup_dictInsert {α : Type} (c k : String) (v : α) (d : List (String × α)) :
    dlookup c (dictInsert k v d) = if k = c then some v else dlookup c d := by
  induction d with
  | nil =>
    by_cases h : k = c <;> simp [dictInsert, dlookup, h]
  | cons p rest ih =>
    by_cases h1 : p.1 = k
    · by_cases h : k = c
      · simp [dictInsert, dlookup, h1, h, h1.trans h]
      · have hpc : p.1 ≠ c := fun hc => h (h1.symm.trans hc)
        simp [dictInsert, dlookup, h1, h, hpc]
    · by_cases h : k = c
      · subst h
        simp [dictInsert, dlookup, h1, ih]
      · by_cases hpc : p.1 = c
        · have hck : c ≠ k := fun hc => h hc.symm
          simp [dictInsert, dlookup, h1, h, hpc, hck]
        · simp [dictInsert, dlookup, h1, h, hpc, ih]

theorem dlookup_append {α : Type} (c : String) (d1 d2 : List (String × α)) :
    dlookup c (d1 ++ d2)
      = match dlookup c d1 with
        | some v => some v
        | none => dlookup c d2 := by
  induction d1 with
  | nil => simp [dlookup]
  | cons p rest ih =>
    by_cases h : p.1 = c <;> simp [dlookup, h, ih]

theorem dlookup_isSome_iff_mem_keys {α : Type} (c : String) (d : List (String × α)) :
    (dlookup c d).isSome ↔ c ∈ dKeys d := by
  induction d with
  | nil => simp [dlookup, dKeys]
  | cons p rest ih =>
    by_cases h : p.1 = c <;> simp [dlookup, dKeys, h, ih]
    exact fun hc => absurd hc.symm h

theorem dlookup_foldl_insert_isSome {α β : Type} (key : β → String) (val : β → List (String × α) → α)
    (rows : List β) (d : List (String × α)) (c : String) :
    (dlookup c (rows.foldl (fun e r => dictInsert (key r) (val r e) e) d)).isSome
      ↔ (dlookup c d).isSome ∨ c ∈ rows.map key := by
  induction rows generalizing d with
  | nil => simp
  | cons r rest ih =>
    rw [List.foldl_cons, ih]
    rw [dlookup_dictInsert]
    by_cases h : key r = c
    · simp [h]
    · simp only [h, if_false, List.map_cons, List.mem_cons]
      constructor
      · rintro (hs | hm)
        · exact Or.inl hs
        · exact Or.inr (Or.inr hm)
      · rintro (hs | hc | hm)
        · exact Or.inl hs
        · exact absurd hc.symm h
        · exact Or.inr hm

theorem hsLookup_keys (sections : List (String × String)) (rows : List HsRow) (c : String) :
    (dlookup c (hsLookup sections rows)).isSome ↔ c ∈ rows.map HsRow.hscode := by
  unfold hsLookup
  have := dlookup_foldl_insert_isSome (fun r : HsRow => r.hscode)
    (fun r _ => (⟨r.hscode, r.descr, r.sect, (dlookup r.sect (pyDict sections)).getD "",
      pyIntOf r.level, hsLevelType r.level⟩ : LkEntry)) rows [] c
  simpa [dlookup] using this

mutual
theorem cnLookN_keys : ∀ (t : TNode) (d : List (String × LkEntry)) (sec sn c : String),
    (dlookup c (cnLookN d sec sn t).1).isSome
      ↔ (dlookup c d).isSome ∨ c ∈ nodeCodes t
  | .mk i cd nm ty none, d, sec, sn, c => by
    simp only [cnLookN, nodeCodes, dlookup_dictInsert]
    by_cases h : cd = c <;> simp [h]
    exact fun hc => absurd hc.symm h
  | .mk i cd nm ty (some cs), d, sec, sn, c => by
    simp only [cnLookN, nodeCodes]
    rw [cnLookF_keys cs]
    rw [dlookup_dictInsert]
    by_cases h : cd = c
    · simp [h]
    · simp only [h, if_false, List.mem_cons]
      constructor
      · rintro (hs | hm)
        · exact Or.inl hs
        · exact Or.inr (Or.inr hm)
      · rintro (hs | hc | hm)
        · exact Or.inl hs
        · exact absurd hc.symm h
        · exact Or.inr hm
theorem cnLookF_keys : ∀ (ts : List TNode) (d : List (String × LkEntry)) (sec sn c : String),
    (dlookup c (cnLookF d sec sn ts)).isSome
      ↔ (dlookup c d).isSome ∨ c ∈ forestCodes ts
  | [], d, sec, sn, c => by simp [cnLookF, forestCodes]
  | t :: ts, d, sec, sn, c => by
    simp only [cnLookF, forestCodes]
    rw [cnLookF_keys ts, cnLookN_keys t]
    simp [or_assoc]
end

/-- C1 (amended).  The flat lookup of the CN generator is derived from the
assembled tree and keys exactly the codes of all reachable tree nodes,
section nodes included, so a record the assembler could not place is
absent from the CN lookup as well; the HS generator instead builds its
lookup directly from the input records, so its key set is exactly the set
of record codes even when a record could not be placed in the tree. -/
theorem c1_roundtrip_amended (rows : List CnRow) (sections : List (String × String))
    (hrows : List HsRow) (c : String) :
    ((dlookup c (cnLookup rows)).isSome ↔ c ∈ forestCodes (cnTree rows)) ∧
    ((dlookup c (hsLookup sections hrows)).isSome ↔ c ∈ hrows.map HsRow.hscode) := by
  constructor
  · unfold cnLookup
    rw [cnLookF_keys]
    simp [dlookup]
  · exact hsLookup_keys sections hrows c

/-- C1 (counterexample).  For the CN input consisting of a section row and
an orphan 8-digit row, the lookup contains the section's code `I` even
though the claim excludes section nodes, and the orphan row — a
successfully classified 8-digit record — appears in neither the tree nor
the lookup, contradicting mandatory lookup completeness. -/
theorem c1_roundtrip_counterexample :
    (dlookup "I" (cnLookup [⟨"I", "", "X"⟩, ⟨"0101 21 00", "", "H"⟩])).isSome = true ∧
    "I" ∉ forestCodesNoSec (cnTree [⟨"I", "", "X"⟩, ⟨"0101 21 00", "", "H"⟩]) ∧
    cnKind ⟨"0101 21 00", "", "H"⟩ = .cn8 ∧
    "01012100" ∉ forestCodes (cnTree [⟨"I", "", "X"⟩, ⟨"0101 21 00", "", "H"⟩]) ∧
    (dlookup "01012100" (cnLookup [⟨"I", "", "X"⟩, ⟨"0101 21 00", "", "H"⟩])).isNone = true := by
  decide

/-- C7 (amended).  A group/section label is title-cased exactly when its
first character is a lower-case letter (not when the whole label is
lower-case): the section nodes of the HS tree carry the normalised name,
which is `pyTitle` of the label when the label's first character is
lower-case and the unchanged label otherwise. -/
theorem c7_titlecase_amended (sections : List (String × String)) (rows : List HsRow)
    (rm nmv : String) (hmem : (rm, nmv) ∈ pyDict sections) :
    (∃ chs, TNode.mk ("hs-section-" ++ rm) rm (normalizeLabel nmv) "section" (some chs)
        ∈ hsForest sections rows) ∧
    (∀ c cl, nmv.data = c :: cl →
      (pyCharIsLower c = true → normalizeLabel nmv = pyTitle nmv) ∧
      (pyCharIsLower c = false → normalizeLabel nmv = nmv)) := by
  constructor
  · exact ⟨_, List.mem_map_of_mem _ hmem⟩
  · intro c cl hdata
    unfold normalizeLabel
    rw [hdata]
    constructor
    · intro h
      simp [h]
    · intro h
      simp [h]

theorem c7_titlecase_amended_witness :
    (("I", "live animals") ∈ pyDict [("I", "live animals")]) ∧
    ((∃ chs, TNode.mk ("hs-section-" ++ "I") "I" (normalizeLabel "live animals") "section"
        (some chs) ∈ hsForest [("I", "live animals")] []) ∧
     (∀ c cl, ("live animals" : String).data = c :: cl →
       (pyCharIsLower c = true → normalizeLabel "live animals" = pyTitle "live animals") ∧
       (pyCharIsLower c = false → normalizeLabel "live animals" = "live animals"))) :=
  ⟨by decide, c7_titlecase_amended [("I", "live animals")] [] "I" "live animals" (by decide)⟩

/-- C7 (counterexample).  The label `aB` is not fully lower-case, yet the
generator title-cases it (the source only inspects the first character):
the HS section built from it is named `Ab`, not `aB`. -/
theorem c7_titlecase_counterexample :
    pyStrIslower "aB" = false ∧
    (hsForest [("I", "aB")] []).map TNode.nm ≠ ["aB"] ∧
    (hsForest [("I", "aB")] []).map TNode.nm = ["Ab"] := by
  decide

theorem dlookup_bucketAppend {α : Type} (c k : String) (v : α) (d : List (String × List α)) :
    dlookup c (bucketAppend k v d)
      = if k = c then some (dlookupD c d ++ [v]) else dlookup c d := by
  induction d with
  | nil =>
    by_cases h : k = c <;> simp [bucketAppend, dlookup, dlookupD, h]
  | cons p rest ih =>
    by_cases h1 : p.1 = k
    · by_cases h : k = c
      · simp [bucketAppend, dlookup, dlookupD, h1, h, h1.trans h]
      · have hpc : p.1 ≠ c := fun hc => h (h1.symm.trans hc)
        simp [bucketAppend, dlookup, dlookupD, h1, h, hpc]
    · by_cases h : k = c
      · subst h
        simp [bucketAppend, dlookup, dlookupD, h1, ih]
      · by_cases hpc : p.1 = c
        · have hck : c ≠ k := fun hc => h hc.symm
          simp [bucketAppend, dlookup, dlookupD, h1, h, hpc, hck]
        · simp [bucketAppend, dlookup, dlookupD, h1, h, hpc, ih]

theorem dlookupD_bucketAppend {α : Type} (c k : String) (v : α) (d : List (String × List α)) :
    dlookupD c (bucketAppend k v d)
      = if k = c then dlookupD c d ++ [v] else dlookupD c d := by
  unfold dlookupD
  rw [dlookup_bucketAppend]
  by_cases h : k = c <;> simp [h, dlookupD]

theorem bucketFold_lookupD {α β : Type} (key : β → String) (ent : β → α)
    (rows : List β) (d : List (String × List α)) (c : String) :
    dlookupD c (rows.foldl (fun e r => bucketAppend (key r) (ent r) e) d)
      = dlookupD c d ++ (rows.filter (fun r => key r = c)).map ent := by
  induction rows generalizing d with
  | nil => simp
  | cons r rest ih =>
    rw [List.foldl_cons, ih]
    rw [dlookupD_bucketAppend]
    by_cases h : key r = c
    · simp [h]
    · simp [h]

theorem bucketFold_isSome {α β : Type} (key : β → String) (ent : β → α)
    (rows : List β) (d : List (String × List α)) (c : String) :
    (dlookup c (rows.foldl (fun e r => bucketAppend (key r) (ent r) e) d)).isSome
      ↔ (dlookup c d).isSome ∨ c ∈ rows.map key := by
  induction rows generalizing d with
  | nil => simp
  | cons r rest ih =>
    rw [List.foldl_cons, ih]
    rw [dlookup_bucketAppend]
    by_cases h : key r = c
    · simp [h]
    · simp only [h, if_false, List.map_cons, List.mem_cons]
      constructor
      · rintro (hs | hm)
        · exact Or.inl hs
        · exact Or.inr (Or.inr hm)
      · rintro (hs | hc | hm)
        · exact Or.inl hs
        · exact absurd hc.symm h
        · exact Or.inr hm

theorem strAppend_cancel_left (p a b : String) (h : p ++ a = p ++ b) : a = b := by
  have hd := congrArg String.data h
  simp only [String.data_append] at hd
  have h2 := List.append_cancel_left hd
  cases a
  cases b
  exact congrArg String.mk h2

theorem dlookup_map_pre {α β : Type} (pre : String) (f : String × α → β)
    (d : List (String × α)) (k : String) :
    dlookup (pre ++ k) (d.map (fun p => (pre ++ p.1, f p)))
      = (dlookup k d).map (fun v => f (k, v)) := by
  induction d with
  | nil => simp [dlookup]
  | cons p rest ih =>
    by_cases h : p.1 = k
    · subst h
      simp [dlookup, ih]
    · have hne : ¬ (pre ++ p.1 = pre ++ k) := fun hc => h (strAppend_cancel_left pre _ _ hc)
      simp [dlookup, h, hne, ih]

theorem dlookup_cpc_in_hs_none {α β : Type} (f : String × α → β)
    (d : List (String × α)) (k : String) :
    dlookup ("cpc-" ++ k) (d.map (fun p => ("hs-" ++ p.1, f p))) = none := by
  induction d with
  | nil => simp [dlookup]
  | cons p rest ih =>
    have hne : ¬ ("hs-" ++ p.1 = "cpc-" ++ k) := by
      intro hc
      have hd := congrArg String.data hc
      simp only [String.data_append] at hd
      simp [String.data] at hd
    simp [dlookup, hne, ih]

/-- C4.  Exact concordance: for every declared row, the CPC code appears in
the forward bucket of the (dot-stripped) HS key and the HS key in the
reverse bucket of the CPC code; buckets are never deduplicated (the bucket
length equals the number of rows sharing the key); and the cardinality
summary tags the key with its bucket length, classified `1:1` exactly when
that length is one. -/
theorem c4_concordance (rows : List ConcRow) (r : ConcRow) (hr : r ∈ rows) :
    (concFwdEntry r ∈ dlookupD (concHsKey r) (concFwd rows) ∧
      concCpcKey r ∈ (dlookupD (concHsKey r) (concFwd rows)).map ConcEntry.code) ∧
    (concRevEntry r ∈ dlookupD (concCpcKey r) (concRev rows) ∧
      concHsKey r ∈ (dlookupD (concCpcKey r) (concRev rows)).map ConcEntry.code) ∧
    ((dlookupD (concHsKey r) (concFwd rows)).length
      = (rows.filter (fun q => concHsKey q = concHsKey r)).length) ∧
    (dlookup ("hs-" ++ concHsKey r) (concInfo rows)
      = some ⟨(dlookupD (concHsKey r) (concFwd rows)).length,
          if (dlookupD (concHsKey r) (concFwd rows)).length = 1 then "1:1" else "1:N"⟩) ∧
    (dlookup ("cpc-" ++ concCpcKey r) (concInfo rows)
      = some ⟨(dlookupD (concCpcKey r) (concRev rows)).length,
          if (dlookupD (concCpcKey r) (concRev rows)).length = 1 then "1:1" else "1:N"⟩) ∧
    (∀ info : MapInfo, dlookup ("hs-" ++ concHsKey r) (concInfo rows) = some info →
      (info.ty = "1:1" ↔ info.count = 1)) := by
  have hfwd : dlookupD (concHsKey r) (concFwd rows)
      = (rows.filter (fun q => concHsKey q = concHsKey r)).map concFwdEntry := by
    unfold concFwd
    rw [bucketFold_lookupD]
    simp [dlookupD, dlookup]
  have hrev : dlookupD (concCpcKey r) (concRev rows)
      = (rows.filter (fun q => concCpcKey q = concCpcKey r)).map concRevEntry := by
    unfold concRev
    rw [bucketFold_lookupD]
    simp [dlookupD, dlookup]
  have hmemf : concFwdEntry r ∈ dlookupD (concHsKey r) (concFwd rows) := by
    rw [hfwd]
    exact List.mem_map_of_mem _ (List.mem_filter.2 ⟨hr, by simp⟩)
  have hmemr : concRevEntry r ∈ dlookupD (concCpcKey r) (concRev rows) := by
    rw [hrev]
    exact List.mem_map_of_mem _ (List.mem_filter.2 ⟨hr, by simp⟩)
  have hfsome : (dlookup (concHsKey r) (concFwd rows)).isSome := by
    unfold concFwd
    rw [bucketFold_isSome]
    exact Or.inr (List.mem_map_of_mem _ hr)
  have hrsome : (dlookup (concCpcKey r) (concRev rows)).isSome := by
    unfold concRev
    rw [bucketFold_isSome]
    exact Or.inr (List.mem_map_of_mem _ hr)
  obtain ⟨bf, hbf⟩ := Option.isSome_iff_exists.1 hfsome
  obtain ⟨br, hbr⟩ := Option.isSome_iff_exists.1 hrsome
  have hinfo_hs : dlookup ("hs-" ++ concHsKey r) (concInfo rows)
      = some ⟨bf.length, if bf.length = 1 then "1:1" else "1:N"⟩ := by
    unfold concInfo
    rw [dlookup_append]
    rw [dlookup_map_pre "hs-"
      (fun p : String × List ConcEntry =>
        (⟨p.2.length, if p.2.length = 1 then "1:1" else "1:N"⟩ : MapInfo))]
    simp [hbf]
  have hinfo_cpc : dlookup ("cpc-" ++ concCpcKey r) (concInfo rows)
      = some ⟨br.length, if br.length = 1 then "1:1" else "1:N"⟩ := by
    unfold concInfo
    rw [dlookup_append]
    rw [dlookup_cpc_in_hs_none]
    rw [dlookup_map_pre "cpc-"
      (fun p : String × List ConcEntry =>
        (⟨p.2.length, if p.2.length = 1 then "1:1" else "1:N"⟩ : MapInfo))]
    simp [hbr]
  have hbfD : dlookupD (concHsKey r) (concFwd rows) = bf := by simp [dlookupD, hbf]
  have hbrD : dlookupD (concCpcKey r) (concRev rows) = br := by simp [dlookupD, hbr]
  refine ⟨⟨hmemf, ?_⟩, ⟨hmemr, ?_⟩, ?_, ?_, ?_, ?_⟩
  · exact List.mem_map_of_mem ConcEntry.code hmemf
  · exact List.mem_map_of_mem ConcEntry.code hmemr
  · rw [hfwd, List.length_map]
  · rw [hbfD]
    exact hinfo_hs
  · rw [hbrD]
    exact hinfo_cpc
  · intro info hinfo
    rw [hinfo_hs] at hinfo
    obtain rfl := Option.some_inj.1 hinfo
    by_cases h1 : bf.length = 1
    · simp [h1]
    · have hne : ("1:N" : String) ≠ "1:1" := by decide
      simp [h1, hne]

theorem c4_concordance_witness :
    ((⟨"0101.21", "0", "021210", "1"⟩ : ConcRow) ∈
      [(⟨"0101.21", "0", "021210", "1"⟩ : ConcRow)]) ∧
    ((concFwdEntry ⟨"0101.21", "0", "021210", "1"⟩
        ∈ dlookupD (concHsKey ⟨"0101.21", "0", "021210", "1"⟩)
            (concFwd [⟨"0101.21", "0", "021210", "1"⟩]) ∧
      concCpcKey ⟨"0101.21", "0", "021210", "1"⟩
        ∈ (dlookupD (concHsKey ⟨"0101.21", "0", "021210", "1"⟩)
            (concFwd [⟨"0101.21", "0", "021210", "1"⟩])).map ConcEntry.code) ∧
    (concRevEntry ⟨"0101.21", "0", "021210", "1"⟩
        ∈ dlookupD (concCpcKey ⟨"0101.21", "0", "021210", "1"⟩)
            (concRev [⟨"0101.21", "0", "021210", "1"⟩]) ∧
      concHsKey ⟨"0101.21", "0", "021210", "1"⟩
        ∈ (dlookupD (concCpcKey ⟨"0101.21", "0", "021210", "1"⟩)
            (concRev [⟨"0101.21", "0", "021210", "1"⟩])).map ConcEntry.code) ∧
    ((dlookupD (concHsKey ⟨"0101.21", "0", "021210", "1"⟩)
        (concFwd [⟨"0101.21", "0", "021210", "1"⟩])).length
      = ([(⟨"0101.21", "0", "021210", "1"⟩ : ConcRow)].filter
          (fun q => concHsKey q = concHsKey ⟨"0101.21", "0", "021210", "1"⟩)).length) ∧
    (dlookup ("hs-" ++ concHsKey ⟨"0101.21", "0", "021210", "1"⟩)
        (concInfo [⟨"0101.21", "0", "021210", "1"⟩])
      = some ⟨(dlookupD (concHsKey ⟨"0101.21", "0", "021210", "1"⟩)
            (concFwd [⟨"0101.21", "0", "021210", "1"⟩])).length,
          if (dlookupD (concHsKey ⟨"0101.21", "0", "021210", "1"⟩)
            (concFwd [⟨"0101.21", "0", "021210", "1"⟩])).length = 1 then "1:1" else "1:N"⟩) ∧
    (dlookup ("cpc-" ++ concCpcKey ⟨"0101.21", "0", "021210", "1"⟩)
        (concInfo [⟨"0101.21", "0", "021210", "1"⟩])
      = some ⟨(dlookupD (concCpcKey ⟨"0101.21", "0", "021210", "1"⟩)
            (concRev [⟨"0101.21", "0", "021210", "1"⟩])).length,
          if (dlookupD (concCpcKey ⟨"0101.21", "0", "021210", "1"⟩)
            (concRev [⟨"0101.21", "0", "021210", "1"⟩])).length = 1 then "1:1" else "1:N"⟩) ∧
    (∀ info : MapInfo, dlookup ("hs-" ++ concHsKey ⟨"0101.21", "0", "021210", "1"⟩)
        (concInfo [⟨"0101.21", "0", "021210", "1"⟩]) = some info →
      (info.ty = "1:1" ↔ info.count = 1))) :=
  ⟨by decide, c4_concordance [⟨"0101.21", "0", "021210", "1"⟩]
    ⟨"0101.21", "0", "021210", "1"⟩ (by decide)⟩

theorem insLex_mem (m : Nat × FMatch) (l : List (Nat × FMatch)) (x : Nat × FMatch) :
    x ∈ insLexDesc m l ↔ x = m ∨ x ∈ l := by
  induction l with
  | nil => simp [insLexDesc]
  | cons y ys ih =>
    by_cases h : y.2.sim < m.2.sim <;> simp [insLexDesc, h, ih] <;> tauto

theorem insLex_perm (m : Nat × FMatch) (l : List (Nat × FMatch)) :
    List.Perm (insLexDesc m l) (m :: l) := by
  induction l with
  | nil => simp [insLexDesc]
  | cons y ys ih =>
    by_cases h : y.2.sim < m.2.sim
    · simp [insLexDesc, h]
    · simp only [insLexDesc, h, if_false]
      exact ((ih.cons y).trans (List.Perm.swap m y ys))

theorem sortEnum_foldl_perm : ∀ (e acc : List (Nat × FMatch)),
    List.Perm (e.foldl (fun a m => insLexDesc m a) acc) (e ++ acc)
  | [], acc => by simp
  | m :: e, acc => by
    rw [List.foldl_cons]
    refine (sortEnum_foldl_perm e (insLexDesc m acc)).trans ?_
    have h1 : List.Perm (e ++ insLexDesc m acc) (e ++ (m :: acc)) :=
      List.Perm.append_left e (insLex_perm m acc)
    refine h1.trans ?_
    exact List.perm_middle

theorem sortEnum_perm (l : List (Nat × FMatch)) :
    List.Perm (sortEnumDesc l) l := by
  have := sortEnum_foldl_perm l []
  simpa [sortEnumDesc] using this

theorem insLex_mapsnd (m : Nat × FMatch) (l : List (Nat × FMatch)) :
    (insLexDesc m l).map Prod.snd = insSimDesc m.2 (l.map Prod.snd) := by
  induction l with
  | nil => simp [insLexDesc, insSimDesc]
  | cons y ys ih =>
    by_cases h : y.2.sim < m.2.sim
    · simp [insLexDesc, insSimDesc, h]
    · simp [insLexDesc, insSimDesc, h, ih]

theorem sortSim_foldl_mapsnd : ∀ (e acc : List (Nat × FMatch)),
    (e.foldl (fun a m => insLexDesc m a) acc).map Prod.snd
      = (e.map Prod.snd).foldl (fun a m => insSimDesc m a) (acc.map Prod.snd)
  | [], acc => by simp
  | m :: e, acc => by
    rw [List.foldl_cons, List.map_cons, List.foldl_cons]
    rw [sortSim_foldl_mapsnd e (insLexDesc m acc)]
    rw [insLex_mapsnd]

theorem sortSim_eq_mapsnd (l : List FMatch) :
    sortSimDesc l = (sortEnumDesc l.enum).map Prod.snd := by
  unfold sortSimDesc sortEnumDesc
  rw [sortSim_foldl_mapsnd]
  simp

theorem sortSim_perm (l : List FMatch) : List.Perm (sortSimDesc l) l := by
  rw [sortSim_eq_mapsnd]
  have := (sortEnum_perm l.enum).map Prod.snd
  simpa using this

theorem sortSim_length (l : List FMatch) : (sortSimDesc l).length = l.length :=
  (sortSim_perm l).length_eq

theorem insLex_pairwise (m : Nat × FMatch) (l : List (Nat × FMatch))
    (hp : l.Pairwise lexAfter) (hb : ∀ x ∈ l, x.1 < m.1) :
    (insLexDesc m l).Pairwise lexAfter := by
  induction l with
  | nil => simp [insLexDesc, List.Pairwise.nil]
  | cons y ys ih =>
    rw [List.pairwise_cons] at hp
    by_cases h : y.2.sim < m.2.sim
    · simp only [insLexDesc, h, if_true]
      refine List.Pairwise.cons ?_ (List.Pairwise.cons hp.1 hp.2)
      intro z hz
      rcases List.mem_cons.1 hz with rfl | hz2
      · exact Or.inl h
      · rcases hp.1 z hz2 with hlt | ⟨heq, _⟩
        · exact Or.inl (hlt.trans h)
        · exact Or.inl (heq ▸ h)
    · simp only [insLexDesc, h, if_false]
      refine List.Pairwise.cons ?_ (ih hp.2 (fun x hx => hb x (List.mem_cons_of_mem y hx)))
      intro z hz
      rcases (insLex_mem m ys z).1 hz with rfl | hz2
      · rcases lt_or_eq_of_le (not_lt.1 h) with hlt | heq
        · exact Or.inl hlt
        · exact Or.inr ⟨heq.symm, hb y (List.mem_cons_self y ys)⟩
      · exact hp.1 z hz2

theorem enumFrom_fst_ge : ∀ (l : List FMatch) (n : Nat) (p : Nat × FMatch),
    p ∈ List.enumFrom n l → n ≤ p.1
  | [], _, _, h => absurd h (List.not_mem_nil _)
  | x :: xs, n, p, h => by
    rcases List.mem_cons.1 h with rfl | h2
    · exact le_refl n
    · exact (Nat.le_succ n).trans (enumFrom_fst_ge xs (n + 1) p h2)

theorem enumFrom_pairwise : ∀ (l : List FMatch) (n : Nat),
    (List.enumFrom n l).Pairwise (fun a b => a.1 < b.1)
  | [], _ => List.Pairwise.nil
  | x :: xs, n => by
    refine List.Pairwise.cons ?_ (enumFrom_pairwise xs (n + 1))
    intro z hz
    exact Nat.lt_of_lt_of_le (Nat.lt_succ_self n) (enumFrom_fst_ge xs (n + 1) z hz)

theorem sortEnum_foldl_pairwise : ∀ (e acc : List (Nat × FMatch)),
    acc.Pairwise lexAfter → (∀ x ∈ acc, ∀ y ∈ e, x.1 < y.1) →
    e.Pairwise (fun a b => a.1 < b.1) →
    (e.foldl (fun a m => insLexDesc m a) acc).Pairwise lexAfter
  | [], acc, hacc, _, _ => hacc
  | m :: e, acc, hacc, hbound, hen => by
    rw [List.foldl_cons]
    rw [List.pairwise_cons] at hen
    refine sortEnum_foldl_pairwise e (insLexDesc m acc) ?_ ?_ hen.2
    · exact insLex_pairwise m acc hacc
        (fun x hx => hbound x hx m (List.mem_cons_self m e))
    · intro x hx y hy
      rcases (insLex_mem m acc x).1 hx with rfl | hx2
      · exact hen.1 y hy
      · exact hbound x hx2 y (List.mem_cons_of_mem m hy)

theorem sortEnum_enum_pairwise (l : List FMatch) :
    (sortEnumDesc l.enum).Pairwise lexAfter := by
  unfold sortEnumDesc
  refine sortEnum_foldl_pairwise l.enum [] List.Pairwise.nil (by simp) ?_
  have : l.enum = List.enumFrom 0 l := rfl
  rw [this]
  exact enumFrom_pairwise l 0

theorem sortSim_pairwise (l : List FMatch) :
    (sortSimDesc l).Pairwise (fun a b => b.sim ≤ a.sim) := by
  rw [sortSim_eq_mapsnd]
  refine List.Pairwise.map Prod.snd ?_ (sortEnum_enum_pairwise l)
  intro a b hab
  rcases hab with hlt | ⟨heq, _⟩
  · exact le_of_lt hlt
  · exact le_of_eq heq.symm

theorem fuzzyStep_fwd (hsets : List (String × Finset String)) (st : FuzzySt)
    (v dsc : String) :
    (fuzzyStep hsets st (v, dsc)).fwd
      = if preprocess dsc = ∅ then st.fwd
        else if (fuzzyMatches hsets (preprocess dsc)).isEmpty then st.fwd
        else dictInsert v
          ((sortSimDesc (fuzzyMatches hsets (preprocess dsc))).take 3) st.fwd := by
  unfold fuzzyStep
  dsimp only
  split_ifs <;> rfl

theorem fuzzyStep_rev (hsets : List (String × Finset String)) (st : FuzzySt)
    (v dsc : String) :
    (fuzzyStep hsets st (v, dsc)).rev
      = if preprocess dsc = ∅ then st.rev
        else if (fuzzyMatches hsets (preprocess dsc)).isEmpty then st.rev
        else ((sortSimDesc (fuzzyMatches hsets (preprocess dsc))).take 3).foldl
          (fun d m => bucketAppend m.code ⟨v, m.sim⟩ d) st.rev := by
  unfold fuzzyStep
  dsimp only
  split_ifs <;> rfl

theorem fuzzyStep_fwd_ne (hsets : List (String × Finset String)) (st : FuzzySt)
    (v dsc u : String) (h : v ≠ u) :
    dlookup u (fuzzyStep hsets st (v, dsc)).fwd = dlookup u st.fwd := by
  rw [fuzzyStep_fwd]
  split_ifs <;> simp [dlookup_dictInsert, h]

theorem fuzzyFold_fwd_nomem (hsets : List (String × Finset String)) :
    ∀ (items : List (String × String)) (st : FuzzySt) (u : String),
    u ∉ items.map Prod.fst →
    dlookup u (items.foldl (fuzzyStep hsets) st).fwd = dlookup u st.fwd
  | [], _, _, _ => rfl
  | q :: rest, st, u, h => by
    rw [List.foldl_cons]
    simp only [List.map_cons, List.mem_cons] at h
    push_neg at h
    rw [fuzzyFold_fwd_nomem hsets rest _ u h.2]
    obtain ⟨qa, qb⟩ := q
    exact fuzzyStep_fwd_ne hsets st qa qb u (fun hc => h.1 hc.symm)

theorem fuzzyFold_fwd_mem (hsets : List (String × Finset String)) :
    ∀ (items : List (String × String)) (st : FuzzySt) (u dsc : String),
    (items.map Prod.fst).Nodup → (u, dsc) ∈ items → dlookup u st.fwd = none →
    dlookup u (items.foldl (fuzzyStep hsets) st).fwd
      = if preprocess dsc = ∅ then none
        else if (fuzzyMatches hsets (preprocess dsc)).isEmpty then none
        else some ((sortSimDesc (fuzzyMatches hsets (preprocess dsc))).take 3)
  | [], _, _, _, _, hmem, _ => absurd hmem (List.not_mem_nil _)
  | q :: rest, st, u, dsc, hnd, hmem, hnone => by
    rw [List.foldl_cons]
    simp only [List.map_cons, List.nodup_cons] at hnd
    rcases List.mem_cons.1 hmem with heq | hrest
    · have hq : q = (u, dsc) := heq.symm
      subst hq
      have hnotin : u ∉ rest.map Prod.fst := hnd.1
      rw [fuzzyFold_fwd_nomem hsets rest _ u hnotin]
      rw [fuzzyStep_fwd]
      split_ifs with h1 h2
      · exact hnone
      · exact hnone
      · simp [dlookup_dictInsert]
    · have hu : u ∈ rest.map Prod.fst := by
        exact List.mem_map_of_mem Prod.fst hrest
      have hne : q.1 ≠ u := fun hc => hnd.1 (hc ▸ hu)
      refine fuzzyFold_fwd_mem hsets rest _ u dsc hnd.2 hrest ?_
      obtain ⟨qa, qb⟩ := q
      rw [fuzzyStep_fwd_ne hsets st qa qb u hne]
      exact hnone

theorem jaccard_left_empty (t : Finset String) : jaccard ∅ t = 0 := by
  simp [jaccard]

theorem fuzzyMatches_eq_nil (hsets : List (String × Finset String)) (uw : Finset String) :
    fuzzyMatches hsets uw = [] ↔ ∀ p ∈ hsets, ¬ ((3 : ℚ)/10 ≤ jaccard uw p.2) := by
  unfold fuzzyMatches
  rw [List.filterMap_eq_nil]
  constructor
  · intro h p hp hle
    have := h p hp
    rw [if_pos hle] at this
    exact Option.noConfusion this
  · intro h p hp
    rw [if_neg (h p hp)]

theorem fuzzyMatches_mem (hsets : List (String × Finset String)) (uw : Finset String)
    (m : FMatch) :
    m ∈ fuzzyMatches hsets uw ↔
      ∃ p ∈ hsets, (3 : ℚ)/10 ≤ jaccard uw p.2 ∧ m = ⟨p.1, pyRound3 (jaccard uw p.2)⟩ := by
  unfold fuzzyMatches
  rw [List.mem_filterMap]
  constructor
  · rintro ⟨p, hp, hm⟩
    by_cases hle : (3 : ℚ)/10 ≤ jaccard uw p.2
    · rw [if_pos hle] at hm
      exact ⟨p, hp, hle, (Option.some_inj.1 hm).symm⟩
    · rw [if_neg hle] at hm
      exact Option.noConfusion hm
  · rintro ⟨p, hp, hle, rfl⟩
    exact ⟨p, hp, by rw [if_pos hle]⟩

/-- C5.  Fuzzy forward mapping: a source code has an entry iff some
candidate reaches the 0.3 similarity threshold; every entry is a non-empty
list of at most three matches, sorted by stored similarity descending,
equal to the three-element prefix of the stable descending sort of the
retained matches (equal similarities in original candidate order, as
witnessed by the strict lexicographic order on the index-annotated sorted
list), and every retained match stems from a threshold-reaching
candidate. -/
theorem c5_fuzzy_forward (hsets : List (String × Finset String))
    (uitems : List (String × String)) (hnd : (uitems.map Prod.fst).Nodup) (u : String) :
    ((dlookup u (fuzzyFwd hsets uitems)).isSome ↔
      ∃ dsc, (u, dsc) ∈ uitems ∧
        ∃ p ∈ hsets, (3 : ℚ)/10 ≤ jaccard (preprocess dsc) p.2) ∧
    (∀ es, dlookup u (fuzzyFwd hsets uitems) = some es →
      es ≠ [] ∧ es.length ≤ 3 ∧
      es.Pairwise (fun a b => b.sim ≤ a.sim) ∧
      ∃ dsc, (u, dsc) ∈ uitems ∧
        es = ((sortEnumDesc (fuzzyMatches hsets (preprocess dsc)).enum).map
          Prod.snd).take 3 ∧
        (sortEnumDesc (fuzzyMatches hsets (preprocess dsc)).enum).Pairwise lexAfter ∧
        List.Perm (sortEnumDesc (fuzzyMatches hsets (preprocess dsc)).enum)
          (fuzzyMatches hsets (preprocess dsc)).enum ∧
        ∀ m ∈ fuzzyMatches hsets (preprocess dsc),
          ∃ p ∈ hsets, (3 : ℚ)/10 ≤ jaccard (preprocess dsc) p.2 ∧
            m = ⟨p.1, pyRound3 (jaccard (preprocess dsc) p.2)⟩) := by
  have key : ∀ dsc, (u, dsc) ∈ uitems →
      dlookup u (fuzzyFwd hsets uitems)
        = if preprocess dsc = ∅ then none
          else if (fuzzyMatches hsets (preprocess dsc)).isEmpty then none
          else some ((sortSimDesc (fuzzyMatches hsets (preprocess dsc))).take 3) := by
    intro dsc hmem
    unfold fuzzyFwd fuzzyMapsRaw
    exact fuzzyFold_fwd_mem hsets uitems ⟨[], []⟩ u dsc hnd hmem rfl
  constructor
  · by_cases hu : u ∈ uitems.map Prod.fst
    · obtain ⟨q, hq, hq1⟩ := List.mem_map.1 hu
      obtain ⟨qa, qb⟩ := q
      obtain rfl : qa = u := hq1
      rw [key qb hq]
      constructor
      · intro hsome
        refine ⟨qb, hq, ?_⟩
        by_cases h1 : preprocess qb = ∅
        · rw [if_pos h1] at hsome
          exact absurd hsome (by simp)
        · rw [if_neg h1] at hsome
          by_cases h2 : (fuzzyMatches hsets (preprocess qb)).isEmpty
          · rw [if_pos h2] at hsome
            exact absurd hsome (by simp)
          · have hne : fuzzyMatches hsets (preprocess qb) ≠ [] := by
              intro hc
              rw [hc] at h2
              exact h2 rfl
            obtain ⟨m, hm⟩ := List.exists_mem_of_ne_nil _ hne
            obtain ⟨p, hp, hle, _⟩ := (fuzzyMatches_mem hsets (preprocess qb) m).1 hm
            exact ⟨p, hp, hle⟩
      · rintro ⟨dsc, hdsc, p, hp, hle⟩
        have hsame : dsc = qb :=
          congrArg Prod.snd (List.inj_on_of_nodup_map hnd hdsc hq rfl)
        subst hsame
        have h1 : preprocess dsc ≠ ∅ := by
          intro hc
          rw [hc, jaccard_left_empty] at hle
          norm_num at hle
        have h2 : ¬ (fuzzyMatches hsets (preprocess dsc)).isEmpty := by
          intro hc
          exact (fuzzyMatches_eq_nil hsets (preprocess dsc)).1
            (List.isEmpty_iff.1 hc) p hp hle
        rw [if_neg h1, if_neg h2]
        simp
    · rw [show dlookup u (fuzzyFwd hsets uitems) = none from ?_]
      · constructor
        · intro h
          exact absurd h (by simp)
        · rintro ⟨dsc, hdsc, _⟩
          exact absurd (List.mem_map_of_mem Prod.fst hdsc) hu
      · unfold fuzzyFwd fuzzyMapsRaw
        rw [fuzzyFold_fwd_nomem hsets uitems ⟨[], []⟩ u hu]
        rfl
  · intro es hes
    have husome : u ∈ uitems.map Prod.fst := by
      by_contra hu
      have : dlookup u (fuzzyFwd hsets uitems) = none := by
        unfold fuzzyFwd fuzzyMapsRaw
        rw [fuzzyFold_fwd_nomem hsets uitems ⟨[], []⟩ u hu]
        rfl
      rw [this] at hes
      exact Option.noConfusion hes
    obtain ⟨q, hq, hq1⟩ := List.mem_map.1 husome
    obtain ⟨qa, qb⟩ := q
    obtain rfl : qa = u := hq1
    rw [key qb hq] at hes
    by_cases h1 : preprocess qb = ∅
    · rw [if_pos h1] at hes
      exact Option.noConfusion hes
    · rw [if_neg h1] at hes
      by_cases h2 : (fuzzyMatches hsets (preprocess qb)).isEmpty
      · rw [if_pos h2] at hes
        exact Option.noConfusion hes
      · rw [if_neg h2] at hes
        obtain rfl := (Option.some_inj.1 hes).symm
        have hne : fuzzyMatches hsets (preprocess qb) ≠ [] := by
          intro hc
          rw [hc] at h2
          exact h2 rfl
        have hlen : (sortSimDesc (fuzzyMatches hsets (preprocess qb))).length
            = (fuzzyMatches hsets (preprocess qb)).length :=
          sortSim_length _
        refine ⟨?_, ?_, ?_, qb, hq, ?_, ?_, ?_, ?_⟩
        · intro hc
          have := congrArg List.length hc
          rw [List.length_take, hlen] at this
          simp only [List.length_nil] at this
          rcases Nat.min_eq_zero_iff.1 this with h3 | h3
          · exact absurd h3 (by norm_num)
          · exact hne (List.length_eq_zero.1 h3)
        · rw [List.length_take]
          exact Nat.min_le_left 3 _
        · exact List.Pairwise.sublist (List.take_sublist 3 _) (sortSim_pairwise _)
        · rw [sortSim_eq_mapsnd]
        · exact sortEnum_enum_pairwise _
        · exact sortEnum_perm _
        · intro m hm
          exact (fuzzyMatches_mem hsets (preprocess qb) m).1 hm

theorem FuzzySt.ext2 (a b : FuzzySt) (h1 : a.fwd = b.fwd) (h2 : a.rev = b.rev) : a = b := by
  cases a
  cases b
  cases h1
  cases h2
  rfl

theorem revApp_mem : ∀ (tops : List FMatch) (d : List (String × List FMatch))
    (h u : String) (s : ℚ) (v : String),
    ((⟨u, s⟩ : FMatch) ∈ dlookupD h
      (tops.foldl (fun e m => bucketAppend m.code ⟨v, m.sim⟩ e) d))
      ↔ (⟨u, s⟩ : FMatch) ∈ dlookupD h d ∨ (u = v ∧ (⟨h, s⟩ : FMatch) ∈ tops)
  | [], d, h, u, s, v => by simp
  | ⟨mc, msim⟩ :: tops, d, h, u, s, v => by
    rw [List.foldl_cons, revApp_mem tops _ h u s v, dlookupD_bucketAppend]
    by_cases hc : mc = h
    · subst hc
      rw [if_pos rfl]
      simp only [List.mem_append, List.mem_singleton, List.mem_cons, FMatch.mk.injEq,
        true_and, eq_self_iff_true]
      tauto
    · rw [if_neg hc]
      have hhc : ¬ (h = mc) := fun hh => hc hh.symm
      simp only [List.mem_cons, FMatch.mk.injEq, hhc, false_and, false_or]

theorem fuzzyFold_rev_inv (hsets : List (String × Finset String)) :
    ∀ (items : List (String × String)) (st : FuzzySt),
    (items.map Prod.fst).Nodup →
    (∀ v ∈ items.map Prod.fst, dlookup v st.fwd = none) →
    (∀ h u s, ((⟨u, s⟩ : FMatch) ∈ dlookupD h st.rev ↔
        ∃ es, dlookup u st.fwd = some es ∧ (⟨h, s⟩ : FMatch) ∈ es)) →
    ∀ h u s, ((⟨u, s⟩ : FMatch) ∈ dlookupD h (items.foldl (fuzzyStep hsets) st).rev ↔
        ∃ es, dlookup u (items.foldl (fuzzyStep hsets) st).fwd = some es ∧
          (⟨h, s⟩ : FMatch) ∈ es)
  | [], _, _, _, hinv => hinv
  | (v, d0) :: rest, st, hnd, hfresh, hinv => by
    rw [List.foldl_cons]
    simp only [List.map_cons, List.nodup_cons] at hnd
    have hfv : dlookup v st.fwd = none := hfresh v (by simp)
    refine fuzzyFold_rev_inv hsets rest (fuzzyStep hsets st (v, d0)) hnd.2 ?_ ?_
    · intro w hw
      have hwv : v ≠ w := fun hc => hnd.1 (hc ▸ hw)
      rw [fuzzyStep_fwd_ne hsets st v d0 w hwv]
      exact hfresh w (List.mem_cons_of_mem _ hw)
    · intro h u s
      rw [fuzzyStep_fwd, fuzzyStep_rev]
      by_cases h1 : preprocess d0 = ∅
      · rw [if_pos h1, if_pos h1]
        exact hinv h u s
      · rw [if_neg h1, if_neg h1]
        by_cases h2 : (fuzzyMatches hsets (preprocess d0)).isEmpty
        · rw [if_pos h2, if_pos h2]
          exact hinv h u s
        · rw [if_neg h2, if_neg h2]
          rw [revApp_mem]
          rw [dlookup_dictInsert]
          by_cases huv : u = v
          · subst huv
            rw [if_pos rfl]
            constructor
            · rintro (hmem | ⟨_, htop⟩)
              · obtain ⟨es, hes, _⟩ := (hinv h u s).1 hmem
                rw [hfv] at hes
                exact Option.noConfusion hes
              · exact ⟨_, rfl, htop⟩
            · rintro ⟨es, hes, hmm⟩
              obtain rfl := Option.some_inj.1 hes
              exact Or.inr ⟨rfl, hmm⟩
          · have hvu : ¬ (v = u) := fun hc => huv hc.symm
            rw [if_neg hvu]
            constructor
            · rintro (hmem | ⟨hc, _⟩)
              · exact (hinv h u s).1 hmem
              · exact absurd hc huv
            · intro hex
              exact Or.inl ((hinv h u s).2 hex)

theorem dlookupD_map_sort (h : String) (d : List (String × List FMatch)) :
    dlookupD h (d.map (fun p => (p.1, sortSimDesc p.2))) = sortSimDesc (dlookupD h d) := by
  induction d with
  | nil => simp [dlookupD, dlookup, sortSimDesc]
  | cons p rest ih =>
    by_cases hc : p.1 = h
    · simp [dlookupD, dlookup, hc]
    · simp only [List.map_cons]
      unfold dlookupD dlookup
      simp only [hc, if_false]
      exact ih

theorem jaccard_self (s : Finset String) (hs : s ≠ ∅) : jaccard s s = 1 := by
  unfold jaccard
  rw [if_neg (by simp [hs])]
  rw [Finset.inter_self, Finset.union_self]
  have hpos : 0 < s.card := Finset.card_pos.2 (Finset.nonempty_iff_ne_empty.2 hs)
  rw [if_pos hpos]
  have hne : (s.card : ℚ) ≠ 0 := Nat.cast_ne_zero.2 (Nat.pos_iff_ne_zero.1 hpos)
  exact div_self hne

/-- C6.  Fuzzy reverse mapping: a pair `(target, source)` is in a reverse
bucket exactly when `(source, target)` was retained (with the same stored
similarity) in the forward mapping; every reverse bucket is sorted by
similarity descending; and reverse buckets are uncapped — there are inputs
on which a reverse bucket holds more than the forward top-3 cap. -/
theorem c6_fuzzy_reverse (hsets : List (String × Finset String))
    (uitems : List (String × String)) (hnd : (uitems.map Prod.fst).Nodup) :
    (∀ h u s, ((⟨u, s⟩ : FMatch) ∈ dlookupD h (fuzzyRev hsets uitems) ↔
      ∃ es, dlookup u (fuzzyFwd hsets uitems) = some es ∧ (⟨h, s⟩ : FMatch) ∈ es)) ∧
    (∀ h, (dlookupD h (fuzzyRev hsets uitems)).Pairwise (fun a b => b.sim ≤ a.sim)) ∧
    (∃ hsets2 uitems2 h, 3 < (dlookupD h (fuzzyRev hsets2 uitems2)).length) := by
  have hbase : ∀ h u s, ((⟨u, s⟩ : FMatch) ∈
        dlookupD h (fuzzyMapsRaw hsets uitems).rev ↔
      ∃ es, dlookup u (fuzzyMapsRaw hsets uitems).fwd = some es ∧
        (⟨h, s⟩ : FMatch) ∈ es) := by
    unfold fuzzyMapsRaw
    exact fuzzyFold_rev_inv hsets uitems ⟨[], []⟩ hnd (fun v _ => rfl)
      (by intro h u s; simp [dlookupD, dlookup])
  refine ⟨?_, ?_, ?_⟩
  · intro h u s
    unfold fuzzyRev
    rw [dlookupD_map_sort]
    rw [(sortSim_perm _).mem_iff]
    exact hbase h u s
  · intro h
    unfold fuzzyRev
    rw [dlookupD_map_sort]
    exact sortSim_pairwise _
  · have hW : preprocess "live horses" ≠ ∅ := by decide
    have hJ : jaccard (preprocess "live horses") (preprocess "live horses") = 1 :=
      jaccard_self _ hW
    have hms : fuzzyMatches [("h1", preprocess "live horses")] (preprocess "live horses")
        = [⟨"h1", pyRound3 1⟩] := by
      simp only [fuzzyMatches, List.filterMap_cons, List.filterMap_nil, hJ]
      rw [if_pos (by norm_num : (3 : ℚ)/10 ≤ 1)]
    have hstep : ∀ (st : FuzzySt) (u : String),
        fuzzyStep [("h1", preprocess "live horses")] st (u, "live horses")
          = ⟨dictInsert u [⟨"h1", pyRound3 1⟩] st.fwd,
             bucketAppend "h1" ⟨u, pyRound3 1⟩ st.rev⟩ := by
      intro st u
      refine FuzzySt.ext2 _ _ ?_ ?_
      · rw [fuzzyStep_fwd]
        rw [if_neg hW, hms]
        rfl
      · rw [fuzzyStep_rev]
        rw [if_neg hW, hms]
        rfl
    have hrev4 : (fuzzyMapsRaw [("h1", preprocess "live horses")]
          [("u1", "live horses"), ("u2", "live horses"),
           ("u3", "live horses"), ("u4", "live horses")]).rev
        = bucketAppend "h1" ⟨"u4", pyRound3 1⟩ (bucketAppend "h1" ⟨"u3", pyRound3 1⟩
            (bucketAppend "h1" ⟨"u2", pyRound3 1⟩
              (bucketAppend "h1" ⟨"u1", pyRound3 1⟩ []))) := by
      simp [fuzzyMapsRaw, hstep]
    refine ⟨[("h1", preprocess "live horses")],
      [("u1", "live horses"), ("u2", "live horses"),
       ("u3", "live horses"), ("u4", "live horses")], "h1", ?_⟩
    unfold fuzzyRev
    rw [dlookupD_map_sort, sortSim_length, hrev4]
    simp [dlookupD_bucketAppend, dlookupD, dlookup]

theorem c6_fuzzy_reverse_witness :
    ((([("u1", "x")] : List (String × String)).map Prod.fst).Nodup) ∧
    ((∀ h u s, ((⟨u, s⟩ : FMatch) ∈ dlookupD h (fuzzyRev [] [("u1", "x")]) ↔
      ∃ es, dlookup u (fuzzyFwd [] [("u1", "x")]) = some es ∧ (⟨h, s⟩ : FMatch) ∈ es)) ∧
    (∀ h, (dlookupD h (fuzzyRev [] [("u1", "x")])).Pairwise (fun a b => b.sim ≤ a.sim)) ∧
    (∃ hsets2 uitems2 h, 3 < (dlookupD h (fuzzyRev hsets2 uitems2)).length)) :=
  ⟨by decide, c6_fuzzy_reverse [] [("u1", "x")] (by decide)⟩

theorem c5_fuzzy_forward_witness :
    ((([("u1", "x")] : List (String × String)).map Prod.fst).Nodup) ∧
    (((dlookup "u1" (fuzzyFwd [] [("u1", "x")])).isSome ↔
      ∃ dsc, ("u1", dsc) ∈ [("u1", "x")] ∧
        ∃ p ∈ ([] : List (String × Finset String)),
          (3 : ℚ)/10 ≤ jaccard (preprocess dsc) p.2) ∧
    (∀ es, dlookup "u1" (fuzzyFwd [] [("u1", "x")]) = some es →
      es ≠ [] ∧ es.length ≤ 3 ∧
      es.Pairwise (fun a b => b.sim ≤ a.sim) ∧
      ∃ dsc, ("u1", dsc) ∈ [("u1", "x")] ∧
        es = ((sortEnumDesc (fuzzyMatches [] (preprocess dsc)).enum).map
          Prod.snd).take 3 ∧
        (sortEnumDesc (fuzzyMatches [] (preprocess dsc)).enum).Pairwise lexAfter ∧
        List.Perm (sortEnumDesc (fuzzyMatches [] (preprocess dsc)).enum)
          (fuzzyMatches [] (preprocess dsc)).enum ∧
        ∀ m ∈ fuzzyMatches [] (preprocess dsc),
          ∃ p ∈ ([] : List (String × Finset String)),
            (3 : ℚ)/10 ≤ jaccard (preprocess dsc) p.2 ∧
            m = ⟨p.1, pyRound3 (jaccard (preprocess dsc) p.2)⟩)) :=
  ⟨by decide, c5_fuzzy_forward [] [("u1", "x")] (by decide) "u1"⟩

theorem unDigits_natDigitsAux : ∀ (fuel n : Nat), n ≤ fuel →
    unDigits (natDigitsAux fuel n) = n := by
  intro fuel
  induction fuel with
  | zero =>
    intro n hn
    interval_cases n
    rfl
  | succ f ih =>
    intro n hn
    match n with
    | 0 => rfl
    | m + 1 =>
      have hlt : (m + 1) / 10 < m + 1 := Nat.div_lt_self (by omega) (by omega)
      have hle : (m + 1) / 10 ≤ f := by omega
      simp only [natDigitsAux, unDigits, ih _ hle]
      omega

theorem natDigitsAux_lt10 : ∀ (fuel n d : Nat), d ∈ natDigitsAux fuel n → d < 10 := by
  intro fuel
  induction fuel with
  | zero =>
    intro n d hd
    match n, hd with
    | m + 1, hd =>
      rcases List.mem_singleton.1 hd with rfl
      exact Nat.mod_lt _ (by omega)
  | succ f ih =>
    intro n d hd
    match n, hd with
    | m + 1, hd =>
      rcases List.mem_cons.1 hd with rfl | hd2
      · exact Nat.mod_lt _ (by omega)
      · exact ih _ d hd2

theorem decDigitChar_inj : ∀ a < 10, ∀ b < 10, decDigitChar a = decDigitChar b → a = b := by
  decide

theorem mapDigitChar_inj : ∀ (l1 l2 : List Nat), (∀ d ∈ l1, d < 10) → (∀ d ∈ l2, d < 10) →
    l1.map decDigitChar = l2.map decDigitChar → l1 = l2
  | [], [], _, _, _ => rfl
  | [], _ :: _, _, _, h => by simp at h
  | _ :: _, [], _, _, h => by simp at h
  | a :: as, b :: bs, h1, h2, h => by
    simp only [List.map_cons, List.cons.injEq] at h
    have hab : a = b := decDigitChar_inj a (h1 a (by simp)) b (h2 b (by simp)) h.1
    have htl : as = bs := mapDigitChar_inj as bs
      (fun d hd => h1 d (List.mem_cons_of_mem a hd))
      (fun d hd => h2 d (List.mem_cons_of_mem b hd)) h.2
    rw [hab, htl]

theorem natStr_inj {m n : Nat} (hm : m ≠ 0) (hn : n ≠ 0) (h : natStr m = natStr n) :
    m = n := by
  unfold natStr at h
  rw [if_neg hm, if_neg hn] at h
  have hd : ((natDigitsAux m m).map decDigitChar).reverse
      = ((natDigitsAux n n).map decDigitChar).reverse := by
    injection h
  have hmap := List.reverse_injective hd
  have hdig : natDigitsAux m m = natDigitsAux n n :=
    mapDigitChar_inj _ _ (fun d hd => natDigitsAux_lt10 m m d hd)
      (fun d hd => natDigitsAux_lt10 n n d hd) hmap
  have h1 := unDigits_natDigitsAux m m (le_refl m)
  have h2 := unDigits_natDigitsAux n n (le_refl n)
  rw [← h1, ← h2, hdig]

theorem muiCand_inj (base : String) {m n : Nat} (hm : m ≠ 0) (hn : n ≠ 0)
    (h : base ++ "-d" ++ natStr m = base ++ "-d" ++ natStr n) : m = n :=
  natStr_inj hm hn (strAppend_cancel_left (base ++ "-d") _ _ h)

theorem muiCand_fresh_exists (used : List String) (base : String) :
    ∃ m, 2 ≤ m ∧ m < 2 + (used.length + 1) ∧
      (base ++ "-d" ++ natStr m) ∉ used := by
  by_contra hc
  push_neg at hc
  have hsub : ∀ k ∈ Finset.range (used.length + 1),
      (base ++ "-d" ++ natStr (2 + k)) ∈ used.toFinset := by
    intro k hk
    rw [List.mem_toFinset]
    exact hc (2 + k) (by omega) (by simp at hk; omega)
  have hinj : Set.InjOn (fun k => base ++ "-d" ++ natStr (2 + k))
      (Finset.range (used.length + 1)) := by
    intro a _ b _ hab
    have := muiCand_inj base (m := 2 + a) (n := 2 + b) (by omega) (by omega) hab
    omega
  have hcard := Finset.card_le_card_of_injOn
    (fun k => base ++ "-d" ++ natStr (2 + k)) hsub hinj
  rw [Finset.card_range] at hcard
  have := List.toFinset_card_le used
  omega

theorem freshNumAux_spec (used : List String) (base : String) :
    ∀ (fuel n : Nat),
    (∃ m, n ≤ m ∧ m < n + fuel ∧ (base ++ "-d" ++ natStr m) ∉ used) →
    ((base ++ "-d" ++ natStr (freshNumAux used base n fuel)) ∉ used ∧
      n ≤ freshNumAux used base n fuel ∧
      ∀ k, n ≤ k → k < freshNumAux used base n fuel →
        (base ++ "-d" ++ natStr k) ∈ used) := by
  intro fuel
  induction fuel with
  | zero =>
    rintro n ⟨m, hm1, hm2, _⟩
    omega
  | succ f ih =>
    rintro n hex
    by_cases hmem : (base ++ "-d" ++ natStr n) ∈ used
    · have hex2 : ∃ m, n + 1 ≤ m ∧ m < (n + 1) + f ∧
          (base ++ "-d" ++ natStr m) ∉ used := by
        obtain ⟨m, hm1, hm2, hm3⟩ := hex
        refine ⟨m, ?_, by omega, hm3⟩
        rcases Nat.eq_or_lt_of_le hm1 with rfl | hlt
        · exact absurd hmem hm3
        · omega
      have hres := ih (n + 1) hex2
      rw [show freshNumAux used base n (f + 1)
        = freshNumAux used base (n + 1) f from by rw [freshNumAux]; rw [if_pos hmem]]
      refine ⟨hres.1, by omega, ?_⟩
      intro k hk1 hk2
      rcases Nat.eq_or_lt_of_le hk1 with rfl | hlt
      · exact hmem
      · exact hres.2.2 k (by omega) hk2
    · rw [show freshNumAux used base n (f + 1) = n from by
        rw [freshNumAux]; rw [if_neg hmem]]
      exact ⟨hmem, le_refl n, fun k hk1 hk2 => absurd hk1 (by omega)⟩

theorem muiFresh_not_mem (used : List String) (i : String) :
    muiFresh used i ∉ used := by
  unfold muiFresh
  exact (freshNumAux_spec used i (used.length + 1) 2
    (by
      obtain ⟨m, h1, h2, h3⟩ := muiCand_fresh_exists used i
      exact ⟨m, h1, h2, h3⟩)).1

theorem muiFresh_minimal (used : List String) (i : String) (n : Nat) (hn : 2 ≤ n)
    (hall : ∀ m, 2 ≤ m → m < n → (i ++ "-d" ++ natStr m) ∈ used)
    (hfree : (i ++ "-d" ++ natStr n) ∉ used) :
    muiFresh used i = i ++ "-d" ++ natStr n := by
  unfold muiFresh
  have hspec := freshNumAux_spec used i (used.length + 1) 2 (muiCand_fresh_exists used i)
  set r := freshNumAux used i 2 (used.length + 1) with hr
  rcases Nat.lt_trichotomy r n with hlt | heq | hgt
  · exact absurd (hall r hspec.2.1 hlt) hspec.1
  · rw [heq]
  · exact absurd (hspec.2.2 n hn hgt) hfree

theorem strAppend_assoc (a b c : String) : a ++ b ++ c = a ++ (b ++ c) := by
  have : (a ++ b ++ c).data = (a ++ (b ++ c)).data := by
    simp [String.data_append, List.append_assoc]
  cases a
  cases b
  cases c
  exact congrArg String.mk this

theorem muiSel_not_mem (used : List String) (i : String) :
    (if i ∈ used then muiFresh used i else i) ∉ used := by
  by_cases hmem : i ∈ used
  · rw [if_pos hmem]
    exact muiFresh_not_mem used i
  · rw [if_neg hmem]
    exact hmem

mutual
theorem muiN_spec : ∀ (t : TNode) (used : List String),
    (∀ x, x ∈ (muiN used t).1 ↔ x ∈ used ∨ x ∈ nodeIds (muiN used t).2) ∧
    (nodeIds (muiN used t).2).Nodup ∧
    (∀ x ∈ nodeIds (muiN used t).2, x ∉ used)
  | .mk i c nm ty none, used => by
    have hI := muiSel_not_mem used i
    simp only [muiN, nodeIds]
    refine ⟨?_, by simp, ?_⟩
    · intro x
      simp only [List.mem_cons, List.mem_singleton]
      tauto
    · intro x hx
      rw [List.mem_singleton.1 hx]
      exact hI
  | .mk i c nm ty (some cs), used => by
    have hI := muiSel_not_mem used i
    have hrec := muiL_spec cs ((if i ∈ used then muiFresh used i else i) :: used)
    simp only [muiN, nodeIds]
    refine ⟨?_, ?_, ?_⟩
    · intro x
      rw [hrec.1 x]
      simp only [List.mem_cons]
      tauto
    · rw [List.nodup_cons]
      refine ⟨?_, hrec.2.1⟩
      intro hmem
      exact hrec.2.2 _ hmem (List.mem_cons_self _ _)
    · intro x hx
      rcases List.mem_cons.1 hx with rfl | hx2
      · exact hI
      · intro hxu
        exact hrec.2.2 x hx2 (List.mem_cons_of_mem _ hxu)
theorem muiL_spec : ∀ (ts : List TNode) (used : List String),
    (∀ x, x ∈ (muiL used ts).1 ↔ x ∈ used ∨ x ∈ forestIds (muiL used ts).2) ∧
    (forestIds (muiL used ts).2).Nodup ∧
    (∀ x ∈ forestIds (muiL used ts).2, x ∉ used)
  | [], used => by simp [muiL, forestIds]
  | t :: ts, used => by
    have h1 := muiN_spec t used
    have h2 := muiL_spec ts (muiN used t).1
    simp only [muiL, forestIds]
    refine ⟨?_, ?_, ?_⟩
    · intro x
      rw [h2.1 x, h1.1 x]
      simp only [List.mem_append]
      tauto
    · rw [List.nodup_append]
      refine ⟨h1.2.1, h2.2.1, ?_⟩
      intro x hx1 hx2
      exact h2.2.2 x hx2 ((h1.1 x).2 (Or.inr hx1))
    · intro x hx
      rcases List.mem_append.1 hx with hx1 | hx2
      · exact h1.2.2 x hx1
      · intro hxu
        exact h2.2.2 x hx2 ((h1.1 x).2 (Or.inl hxu))
end

theorem graftOne_spec (used : List String) (t : TNode) :
    (∀ x, x ∈ (graftOne used t).1 ↔ x ∈ used ∨ x ∈ nodeIds (graftOne used t).2) ∧
    (nodeIds (graftOne used t).2).Nodup ∧
    (∀ x ∈ nodeIds (graftOne used t).2, x ∉ used) := by
  unfold graftOne
  exact muiN_spec _ used

theorem graftMany_spec : ∀ (ts : List TNode) (used : List String),
    (∀ x, x ∈ (graftMany used ts).1 ↔ x ∈ used ∨ x ∈ forestIds (graftMany used ts).2) ∧
    (forestIds (graftMany used ts).2).Nodup ∧
    (∀ x ∈ forestIds (graftMany used ts).2, x ∉ used)
  | [], used => by simp [graftMany, forestIds]
  | t :: ts, used => by
    have h1 := graftOne_spec used t
    have h2 := graftMany_spec ts (graftOne used t).1
    simp only [graftMany, forestIds]
    refine ⟨?_, ?_, ?_⟩
    · intro x
      rw [h2.1 x, h1.1 x]
      simp only [List.mem_append]
      tauto
    · rw [List.nodup_append]
      refine ⟨h1.2.1, h2.2.1, ?_⟩
      intro x hx1 hx2
      exact h2.2.2 x hx2 ((h1.1 x).2 (Or.inr hx1))
    · intro x hx
      rcases List.mem_append.1 hx with hx1 | hx2
      · exact h1.2.2 x hx1
      · intro hxu
        exact h2.2.2 x hx2 ((h1.1 x).2 (Or.inl hxu))

theorem forestIds_append (l1 l2 : List TNode) :
    forestIds (l1 ++ l2) = forestIds l1 ++ forestIds l2 := by
  induction l1 with
  | nil => simp [forestIds]
  | cons t ts ih => simp [forestIds, ih]

theorem graftCodes_spec (idx : List (String × TNode)) :
    ∀ (hs : List String) (used : List String),
    (∀ x, x ∈ (graftCodes idx used hs).1 ↔
      x ∈ used ∨ x ∈ forestIds (graftCodes idx used hs).2) ∧
    (forestIds (graftCodes idx used hs).2).Nodup ∧
    (∀ x ∈ forestIds (graftCodes idx used hs).2, x ∉ used)
  | [], used => by simp [graftCodes, forestIds]
  | h :: hs, used => by
    have h1 := graftMany_spec (extractForHs idx h) used
    have h2 := graftCodes_spec idx hs (graftMany used (extractForHs idx h)).1
    simp only [graftCodes, forestIds_append]
    refine ⟨?_, ?_, ?_⟩
    · intro x
      rw [h2.1 x, h1.1 x]
      simp only [List.mem_append]
      tauto
    · rw [List.nodup_append]
      refine ⟨h1.2.1, h2.2.1, ?_⟩
      intro x hx1 hx2
      exact h2.2.2 x hx2 ((h1.1 x).2 (Or.inr hx1))
    · intro x hx
      rcases List.mem_append.1 hx with hx1 | hx2
      · exact h1.2.2 x hx1
      · intro hxu
        exact h2.2.2 x hx2 ((h1.1 x).2 (Or.inl hxu))


theorem attachN_leaf (conc : List (String × List ConcEntry)) (idx : List (String × TNode))
    (used : List String) (g : Bool) (i c nm ty : String) :
    attachN conc idx used g (.mk i c nm ty none)
      = if (g || (decide (strLen (replaceAllStr i "t2-") = 1) &&
            decide ((replaceAllStr i "t2-") ∈ goodsSecCodes))) = true then
          (if (graftCodes idx used
              (((dlookup (replaceAllStr i "t2-") conc).getD []).map ConcEntry.code)).2.isEmpty
           then ((graftCodes idx used
              (((dlookup (replaceAllStr i "t2-") conc).getD []).map ConcEntry.code)).1,
             .mk i c nm ty none)
           else ((graftCodes idx used
              (((dlookup (replaceAllStr i "t2-") conc).getD []).map ConcEntry.code)).1,
             .mk i c nm ty (some (graftCodes idx used
              (((dlookup (replaceAllStr i "t2-") conc).getD []).map ConcEntry.code)).2)))
        else (used, .mk i c nm ty none) := rfl

theorem attachN_node (conc : List (String × List ConcEntry)) (idx : List (String × TNode))
    (used : List String) (g : Bool) (i c nm ty : String) (cs : List TNode) :
    attachN conc idx used g (.mk i c nm ty (some cs))
      = ((attachF conc idx used (g || (decide (strLen (replaceAllStr i "t2-") = 1) &&
            decide ((replaceAllStr i "t2-") ∈ goodsSecCodes))) cs).1,
         .mk i c nm ty (some (attachF conc idx used
           (g || (decide (strLen (replaceAllStr i "t2-") = 1) &&
            decide ((replaceAllStr i "t2-") ∈ goodsSecCodes))) cs).2)) := rfl

theorem attachF_cons (conc : List (String × List ConcEntry)) (idx : List (String × TNode))
    (used : List String) (g : Bool) (t : TNode) (ts : List TNode) :
    attachF conc idx used g (t :: ts)
      = ((attachF conc idx (attachN conc idx used g t).1 g ts).1,
         (attachN conc idx used g t).2 ::
           (attachF conc idx (attachN conc idx used g t).1 g ts).2) := rfl

mutual
theorem attachN_spec : ∀ (t : TNode) (conc : List (String × List ConcEntry))
    (idx : List (String × TNode)) (used : List String) (g : Bool),
    (∀ x ∈ nodeIds t, x ∈ used) → (nodeIds t).Nodup →
    ((∀ x, x ∈ (attachN conc idx used g t).1 ↔
        x ∈ used ∨ x ∈ nodeIds (attachN conc idx used g t).2) ∧
     (nodeIds (attachN conc idx used g t).2).Nodup ∧
     (∀ x ∈ nodeIds (attachN conc idx used g t).2, x ∈ nodeIds t ∨ x ∉ used))
  | .mk i c nm ty none, conc, idx, used, g, hsub, _ => by
    have hiu : i ∈ used := hsub i (by simp [nodeIds])
    rw [attachN_leaf]
    by_cases hg : (g || (decide (strLen (replaceAllStr i "t2-") = 1) &&
        decide ((replaceAllStr i "t2-") ∈ goodsSecCodes))) = true
    · rw [if_pos hg]
      have hgc := graftCodes_spec idx
        (((dlookup (replaceAllStr i "t2-") conc).getD []).map ConcEntry.code) used
      by_cases hk : (graftCodes idx used
          (((dlookup (replaceAllStr i "t2-") conc).getD []).map ConcEntry.code)).2.isEmpty
      · rw [if_pos hk]
        have hnil := List.isEmpty_iff.1 hk
        refine ⟨?_, by simp [nodeIds], ?_⟩
        · intro x
          rw [hgc.1 x]
          rw [hnil]
          simp only [forestIds, nodeIds, List.not_mem_nil, or_false,
            List.mem_singleton]
          constructor
          · exact fun hx => Or.inl hx
          · rintro (hx | rfl)
            · exact hx
            · exact hiu
        · intro x hx
          simp only [nodeIds, List.mem_singleton] at hx
          rw [hx]
          exact Or.inl (by simp [nodeIds])
      · rw [if_neg hk]
        refine ⟨?_, ?_, ?_⟩
        · intro x
          rw [hgc.1 x]
          simp only [nodeIds, List.mem_cons]
          constructor
          · rintro (hx | hx)
            · exact Or.inl hx
            · exact Or.inr (Or.inr hx)
          · rintro (hx | rfl | hx)
            · exact Or.inl hx
            · exact Or.inl hiu
            · exact Or.inr hx
        · simp only [nodeIds, List.nodup_cons]
          refine ⟨?_, hgc.2.1⟩
          intro hmem
          exact hgc.2.2 i hmem hiu
        · intro x hx
          simp only [nodeIds, List.mem_cons] at hx
          rcases hx with rfl | hx2
          · exact Or.inl (by simp [nodeIds])
          · exact Or.inr (hgc.2.2 x hx2)
    · rw [if_neg hg]
      refine ⟨?_, by simp [nodeIds], ?_⟩
      · intro x
        simp only [nodeIds, List.mem_singleton]
        constructor
        · exact fun hx => Or.inl hx
        · rintro (hx | rfl)
          · exact hx
          · exact hiu
      · intro x hx
        exact Or.inl hx
  | .mk i c nm ty (some cs), conc, idx, used, g, hsub, hnd => by
    have hiu : i ∈ used := hsub i (by simp [nodeIds])
    have hsub2 : ∀ x ∈ forestIds cs, x ∈ used := by
      intro x hx
      exact hsub x (by simp [nodeIds, hx])
    have hnd2 : (forestIds cs).Nodup := by
      simp only [nodeIds, List.nodup_cons] at hnd
      exact hnd.2
    have hni : i ∉ forestIds cs := by
      simp only [nodeIds, List.nodup_cons] at hnd
      exact hnd.1
    have hrec := attachF_spec cs conc idx used
      (g || (decide (strLen (replaceAllStr i "t2-") = 1) &&
        decide ((replaceAllStr i "t2-") ∈ goodsSecCodes))) hsub2 hnd2
    rw [attachN_node]
    refine ⟨?_, ?_, ?_⟩
    · intro x
      rw [hrec.1 x]
      simp only [nodeIds, List.mem_cons]
      constructor
      · rintro (hx | hx)
        · exact Or.inl hx
        · exact Or.inr (Or.inr hx)
      · rintro (hx | rfl | hx)
        · exact Or.inl hx
        · exact Or.inl hiu
        · exact Or.inr hx
    · simp only [nodeIds, List.nodup_cons]
      refine ⟨?_, hrec.2.1⟩
      intro hmem
      rcases hrec.2.2 i hmem with hin | hout
      · exact hni hin
      · exact hout hiu
    · intro x hx
      simp only [nodeIds, List.mem_cons] at hx
      rcases hx with rfl | hx2
      · exact Or.inl (by simp [nodeIds])
      · rcases hrec.2.2 x hx2 with hin | hout
        · exact Or.inl (by simp [nodeIds, hin])
        · exact Or.inr hout
theorem attachF_spec : ∀ (ts : List TNode) (conc : List (String × List ConcEntry))
    (idx : List (String × TNode)) (used : List String) (g : Bool),
    (∀ x ∈ forestIds ts, x ∈ used) → (forestIds ts).Nodup →
    ((∀ x, x ∈ (attachF conc idx used g ts).1 ↔
        x ∈ used ∨ x ∈ forestIds (attachF conc idx used g ts).2) ∧
     (forestIds (attachF conc idx used g ts).2).Nodup ∧
     (∀ x ∈ forestIds (attachF conc idx used g ts).2, x ∈ forestIds ts ∨ x ∉ used))
  | [], _, _, used, g, _, _ => by simp [attachF, forestIds]
  | t :: ts, conc, idx, used, g, hsub, hnd => by
    have hsubt : ∀ x ∈ nodeIds t, x ∈ used := by
      intro x hx
      exact hsub x (by simp [forestIds, hx])
    have hsubts : ∀ x ∈ forestIds ts, x ∈ used := by
      intro x hx
      exact hsub x (by simp [forestIds, hx])
    have hndapp := List.nodup_append.1 (by simpa [forestIds] using hnd)
    have h1 := attachN_spec t conc idx used g hsubt hndapp.1
    have h2 := attachF_spec ts conc idx (attachN conc idx used g t).1 g
      (fun x hx => (h1.1 x).2 (Or.inl (hsubts x hx))) hndapp.2.1
    rw [attachF_cons]
    simp only [forestIds, forestIds_append]
    refine ⟨?_, ?_, ?_⟩
    · intro x
      rw [h2.1 x, h1.1 x]
      simp only [List.mem_append]
      tauto
    · rw [List.nodup_append]
      refine ⟨h1.2.1, h2.2.1, ?_⟩
      intro x hx1 hx2
      rcases h2.2.2 x hx2 with hin | hout
      · rcases h1.2.2 x hx1 with hin1 | hout1
        · exact hndapp.2.2 hin1 hin
        · exact hout1 (hsubts x hin)
      · exact hout ((h1.1 x).2 (Or.inr hx1))
    · intro x hx
      rcases List.mem_append.1 hx with hx1 | hx2
      · rcases h1.2.2 x hx1 with hin | hout
        · exact Or.inl (List.mem_append.2 (Or.inl hin))
        · exact Or.inr hout
      · rcases h2.2.2 x hx2 with hin | hout
        · exact Or.inl (List.mem_append.2 (Or.inr hin))
        · exact Or.inr (fun hxu => hout ((h1.1 x).2 (Or.inl hxu)))
end

theorem muiN_nid : ∀ (used : List String) (t : TNode),
    ((muiN used t).2).nid = if t.nid ∈ used then muiFresh used t.nid else t.nid
  | _, .mk _ _ _ _ none => rfl
  | _, .mk _ _ _ _ (some _) => rfl

theorem cand2_eq (i : String) : i ++ "-d" ++ natStr 2 = i ++ "-d2" := by
  rw [strAppend_assoc]
  rfl

/-- C2.  After nested composition every identifier of the merged tree is
unique (the used set is seeded with the re-keyed backbone's identifiers
before grafting, and every grafted identifier is made fresh against it);
`make_unique_ids` leaves a non-colliding identifier unchanged, renames the
first collision to `-d2`, and in general appends `-dn` for the least free
`n ≥ 2`. -/
theorem c2_composite_ids (cpcTree : List TNode) (conc : List (String × List ConcEntry))
    (idx : List (String × TNode)) (hnd : (forestIds (t2Base cpcTree)).Nodup) :
    (forestIds (t2TreeOf cpcTree conc idx)).Nodup ∧
    (∀ (used : List String) (t : TNode), t.nid ∉ used →
      ((muiN used t).2).nid = t.nid) ∧
    (∀ (used : List String) (t : TNode), t.nid ∈ used → (t.nid ++ "-d2") ∉ used →
      ((muiN used t).2).nid = t.nid ++ "-d2") ∧
    (∀ (used : List String) (t : TNode) (n : Nat), 2 ≤ n → t.nid ∈ used →
      (∀ m, 2 ≤ m → m < n → (t.nid ++ "-d" ++ natStr m) ∈ used) →
      (t.nid ++ "-d" ++ natStr n) ∉ used →
      ((muiN used t).2).nid = t.nid ++ "-d" ++ natStr n) := by
  refine ⟨?_, ?_, ?_, ?_⟩
  · unfold t2TreeOf
    exact (attachF_spec (t2Base cpcTree) conc idx (forestIds (t2Base cpcTree)) false
      (fun x hx => hx) hnd).2.1
  · intro used t hni
    rw [muiN_nid, if_neg hni]
  · intro used t hmem hfree
    rw [muiN_nid, if_pos hmem]
    have h2 : (t.nid ++ "-d" ++ natStr 2) ∉ used := by
      rw [cand2_eq]
      exact hfree
    rw [muiFresh_minimal used t.nid 2 (le_refl 2)
      (fun m hm1 hm2 => absurd hm1 (by omega)) h2]
    exact cand2_eq t.nid
  · intro used t n hn hmem hall hfree
    rw [muiN_nid, if_pos hmem]
    exact muiFresh_minimal used t.nid n hn hall hfree

theorem c2_composite_ids_witness :
    (forestIds (t2Base [TNode.mk "cpc-0" "0" "Goods" "section"
      (some [TNode.mk "cpc-01" "01" "A" "division" none,
             TNode.mk "cpc-02" "02" "B" "division" none])])).Nodup ∧
    ((forestIds (t2TreeOf
        [TNode.mk "cpc-0" "0" "Goods" "section"
          (some [TNode.mk "cpc-01" "01" "A" "division" none,
                 TNode.mk "cpc-02" "02" "B" "division" none])]
        [("01", [⟨false, false, "010121"⟩]), ("02", [⟨false, false, "010121"⟩])]
        [("010121", TNode.mk "hts-010121" "0101.21" "Horses" "subheading" none)])).Nodup ∧
    (∀ (used : List String) (t : TNode), t.nid ∉ used →
      ((muiN used t).2).nid = t.nid) ∧
    (∀ (used : List String) (t : TNode), t.nid ∈ used → (t.nid ++ "-d2") ∉ used →
      ((muiN used t).2).nid = t.nid ++ "-d2") ∧
    (∀ (used : List String) (t : TNode) (n : Nat), 2 ≤ n → t.nid ∈ used →
      (∀ m, 2 ≤ m → m < n → (t.nid ++ "-d" ++ natStr m) ∈ used) →
      (t.nid ++ "-d" ++ natStr n) ∉ used →
      ((muiN used t).2).nid = t.nid ++ "-d" ++ natStr n)) :=
  ⟨by decide, c2_composite_ids
    [TNode.mk "cpc-0" "0" "Goods" "section"
      (some [TNode.mk "cpc-01" "01" "A" "division" none,
             TNode.mk "cpc-02" "02" "B" "division" none])]
    [("01", [⟨false, false, "010121"⟩]), ("02", [⟨false, false, "010121"⟩])]
    [("010121", TNode.mk "hts-010121" "0101.21" "Horses" "subheading" none)]
    (by decide)⟩

theorem dlookup_map_val {α β : Type} (f : α → β) (d : List (String × α)) (k : String) :
    dlookup k (d.map (fun p => (p.1, f p.2))) = (dlookup k d).map f := by
  induction d with
  | nil => simp [dlookup]
  | cons p rest ih =>
    by_cases h : p.1 = k <;> simp [dlookup, h, ih]


theorem t2Ins_spec (d : List (String × T2Entry)) (key : String) (E : T2Entry) :
    (∀ k, (dlookup k (if (dlookup key d).isSome then d else dictInsert key E d)).isSome ↔
      ((dlookup k d).isSome ∨ k = key)) ∧
    (∀ k e, dlookup k d = some e →
      dlookup k (if (dlookup key d).isSome then d else dictInsert key E d) = some e) ∧
    (∀ k e, dlookup k (if (dlookup key d).isSome then d else dictInsert key E d) = some e →
      dlookup k d = some e ∨ (k = key ∧ e = E)) := by
  by_cases hpres : (dlookup key d).isSome
  · rw [if_pos hpres]
    refine ⟨?_, fun k e he => he, fun k e he => Or.inl he⟩
    intro k
    constructor
    · exact fun h => Or.inl h
    · rintro (h | rfl)
      · exact h
      · exact hpres
  · rw [if_neg hpres]
    refine ⟨?_, ?_, ?_⟩
    · intro k
      rw [dlookup_dictInsert]
      by_cases hk : key = k
      · subst hk
        simp
      · have : ¬ (k = key) := fun hc => hk hc.symm
        simp [hk, this]
    · intro k e he
      rw [dlookup_dictInsert]
      have hk : ¬ (key = k) := by
        intro hc
        subst hc
        rw [he] at hpres
        exact hpres rfl
      rw [if_neg hk]
      exact he
    · intro k e he
      rw [dlookup_dictInsert] at he
      by_cases hk : key = k
      · rw [if_pos hk] at he
        exact Or.inr ⟨hk.symm, (Option.some_inj.1 he).symm⟩
      · rw [if_neg hk] at he
        exact Or.inl he

theorem t2LookF_cons (d : List (String × T2Entry)) (sec sn : String) (t : TNode)
    (ts : List TNode) :
    t2LookF d sec sn (t :: ts)
      = t2LookF (t2LookN d sec sn t).1 (t2LookN d sec sn t).2.1
          (t2LookN d sec sn t).2.2 ts := rfl

mutual
theorem t2LookN_spec : ∀ (t : TNode) (d : List (String × T2Entry)) (sec sn : String),
    (∀ k, (dlookup k (t2LookN d sec sn t).1).isSome ↔
      ((dlookup k d).isSome ∨ ∃ n ∈ graftedN t, k = "HTS" ++ t2CleanCode n)) ∧
    (∀ k e, dlookup k d = some e → dlookup k (t2LookN d sec sn t).1 = some e) ∧
    (∀ k e, dlookup k (t2LookN d sec sn t).1 = some e →
      dlookup k d = some e ∨ ∃ n ∈ graftedN t, htsEntryOf k e n)
  | .mk i c nm ty none, d, sec, sn => by
    by_cases hpre : strStarts i "t2-hts-" = true
    · have hres : (t2LookN d sec sn (.mk i c nm ty none)).1
          = if (dlookup ("HTS" ++ removeChar ' ' (removeChar '.' c)) d).isSome then d
            else dictInsert ("HTS" ++ removeChar ' ' (removeChar '.' c))
              ⟨c, nm, sec, sn, strLen (removeChar ' ' (removeChar '.' c)), ty, "hts",
                some (removeChar ' ' (removeChar '.' c))⟩ d := by
        simp only [t2LookN, hpre, if_true]
      have hgr : graftedN (.mk i c nm ty none) = [.mk i c nm ty none] := by
        simp [graftedN, hpre]
      have hins := t2Ins_spec d ("HTS" ++ removeChar ' ' (removeChar '.' c))
        ⟨c, nm, sec, sn, strLen (removeChar ' ' (removeChar '.' c)), ty, "hts",
          some (removeChar ' ' (removeChar '.' c))⟩
      rw [hres, hgr]
      refine ⟨?_, hins.2.1, ?_⟩
      · intro k
        rw [hins.1 k]
        simp [t2CleanCode, TNode.code]
      · intro k e he
        rcases hins.2.2 k e he with h1 | ⟨hk, he2⟩
        · exact Or.inl h1
        · refine Or.inr ⟨.mk i c nm ty none, by simp, ?_⟩
          subst he2
          exact ⟨rfl, by simpa [t2CleanCode, TNode.code] using hk, rfl, rfl, rfl, rfl⟩
    · have hres : (t2LookN d sec sn (.mk i c nm ty none)).1 = d := by
        simp only [t2LookN, hpre]
        simp
      have hgr : graftedN (.mk i c nm ty none) = [] := by
        simp [graftedN, hpre]
      rw [hres, hgr]
      exact ⟨fun k => by simp, fun k e he => he, fun k e he => Or.inl he⟩
  | .mk i c nm ty (some cs), d, sec, sn => by
    by_cases hpre : strStarts i "t2-hts-" = true
    · have hres : (t2LookN d sec sn (.mk i c nm ty (some cs))).1
          = t2LookF (if (dlookup ("HTS" ++ removeChar ' ' (removeChar '.' c)) d).isSome
              then d
              else dictInsert ("HTS" ++ removeChar ' ' (removeChar '.' c))
                ⟨c, nm, sec, sn, strLen (removeChar ' ' (removeChar '.' c)), ty, "hts",
                  some (removeChar ' ' (removeChar '.' c))⟩ d) sec sn cs := by
        simp only [t2LookN, hpre, if_true]
      have hgr : graftedN (.mk i c nm ty (some cs)) = .mk i c nm ty (some cs) :: graftedF cs := by
        simp [graftedN, hpre]
      have hins := t2Ins_spec d ("HTS" ++ removeChar ' ' (removeChar '.' c))
        ⟨c, nm, sec, sn, strLen (removeChar ' ' (removeChar '.' c)), ty, "hts",
          some (removeChar ' ' (removeChar '.' c))⟩
      have hrec := t2LookF_spec cs (if (dlookup ("HTS" ++ removeChar ' '
          (removeChar '.' c)) d).isSome then d
        else dictInsert ("HTS" ++ removeChar ' ' (removeChar '.' c))
          ⟨c, nm, sec, sn, strLen (removeChar ' ' (removeChar '.' c)), ty, "hts",
            some (removeChar ' ' (removeChar '.' c))⟩ d) sec sn
      rw [hres, hgr]
      refine ⟨?_, ?_, ?_⟩
      · intro k
        rw [hrec.1 k, hins.1 k]
        simp only [List.mem_cons, exists_eq_or_imp]
        constructor
        · rintro ((h | rfl) | h)
          · exact Or.inl h
          · exact Or.inr (Or.inl (by simp [t2CleanCode, TNode.code]))
          · exact Or.inr (Or.inr h)
        · rintro (h | h | h)
          · exact Or.inl (Or.inl h)
          · exact Or.inl (Or.inr (by simpa [t2CleanCode, TNode.code] using h))
          · exact Or.inr h
      · intro k e he
        exact hrec.2.1 k e (hins.2.1 k e he)
      · intro k e he
        rcases hrec.2.2 k e he with h1 | ⟨n, hn, hent⟩
        · rcases hins.2.2 k e h1 with h2 | ⟨hk, he2⟩
          · exact Or.inl h2
          · refine Or.inr ⟨.mk i c nm ty (some cs), by simp, ?_⟩
            subst he2
            exact ⟨rfl, by simpa [t2CleanCode, TNode.code] using hk, rfl, rfl, rfl, rfl⟩
        · exact Or.inr ⟨n, by simp [hn], hent⟩
    · have hres : (t2LookN d sec sn (.mk i c nm ty (some cs))).1
          = t2LookF d
            (if strLen (replaceAllStr i "t2-") = 1 then replaceAllStr i "t2-" else sec)
            (if strLen (replaceAllStr i "t2-") = 1 then nm else sn) cs := by
        simp only [t2LookN, hpre]
        simp
      have hgr : graftedN (.mk i c nm ty (some cs)) = graftedF cs := by
        simp [graftedN, hpre]
      rw [hres, hgr]
      exact t2LookF_spec cs d _ _
theorem t2LookF_spec : ∀ (ts : List TNode) (d : List (String × T2Entry)) (sec sn : String),
    (∀ k, (dlookup k (t2LookF d sec sn ts)).isSome ↔
      ((dlookup k d).isSome ∨ ∃ n ∈ graftedF ts, k = "HTS" ++ t2CleanCode n)) ∧
    (∀ k e, dlookup k d = some e → dlookup k (t2LookF d sec sn ts) = some e) ∧
    (∀ k e, dlookup k (t2LookF d sec sn ts) = some e →
      dlookup k d = some e ∨ ∃ n ∈ graftedF ts, htsEntryOf k e n)
  | [], d, sec, sn => by
    simp only [t2LookF, graftedF]
    exact ⟨fun k => by simp, fun k e he => he, fun k e he => Or.inl he⟩
  | t :: ts, d, sec, sn => by
    have h1 := t2LookN_spec t d sec sn
    have h2 := t2LookF_spec ts (t2LookN d sec sn t).1 (t2LookN d sec sn t).2.1
      (t2LookN d sec sn t).2.2
    rw [t2LookF_cons]
    simp only [graftedF]
    refine ⟨?_, ?_, ?_⟩
    · intro k
      rw [h2.1 k, h1.1 k]
      simp only [List.mem_append]
      constructor
      · rintro ((h | ⟨n, hn, hk⟩) | ⟨n, hn, hk⟩)
        · exact Or.inl h
        · exact Or.inr ⟨n, Or.inl hn, hk⟩
        · exact Or.inr ⟨n, Or.inr hn, hk⟩
      · rintro (h | ⟨n, hn | hn, hk⟩)
        · exact Or.inl (Or.inl h)
        · exact Or.inl (Or.inr ⟨n, hn, hk⟩)
        · exact Or.inr ⟨n, hn, hk⟩
    · intro k e he
      exact h2.2.1 k e (h1.2.1 k e he)
    · intro k e he
      rcases h2.2.2 k e he with hh | ⟨n, hn, hent⟩
      · rcases h1.2.2 k e hh with hh2 | ⟨n, hn, hent⟩
        · exact Or.inl hh2
        · exact Or.inr ⟨n, List.mem_append.2 (Or.inl hn), hent⟩
      · exact Or.inr ⟨n, List.mem_append.2 (Or.inr hn), hent⟩
end

/-- C3 (amended).  The composed T2 lookup is the backbone lookup with every
entry tagged `origin := cpc`, plus one marker-prefixed entry per distinct
cleaned code among the grafted detail nodes (the first visited grafted node
with a given cleaned code wins; later grafted nodes with the same cleaned
code, e.g. `-d2` duplicates, add no further entry).  Every grafted entry
carries `origin = "hts"` and `originalCode` equal to the node's cleaned
pre-graft code. -/
theorem c3_lookup_amended (cpcLk : List (String × LkEntry)) (tr : List TNode) :
    (∀ k, (dlookup k (t2Lookup cpcLk tr)).isSome ↔
      ((dlookup k cpcLk).isSome ∨ ∃ n ∈ graftedF tr, k = "HTS" ++ t2CleanCode n)) ∧
    (∀ k e, dlookup k cpcLk = some e →
      dlookup k (t2Lookup cpcLk tr) = some (tagCpc e)) ∧
    (∀ k e, dlookup k (t2Lookup cpcLk tr) = some e →
      ((dlookup k cpcLk).map tagCpc = some e ∨
        ∃ n ∈ graftedF tr, htsEntryOf k e n)) := by
  have hbase : ∀ k, dlookup k (cpcLk.map (fun p => (p.1, tagCpc p.2)))
      = (dlookup k cpcLk).map tagCpc := fun k => dlookup_map_val tagCpc cpcLk k
  have hspec := t2LookF_spec tr (cpcLk.map (fun p => (p.1, tagCpc p.2))) "" ""
  refine ⟨?_, ?_, ?_⟩
  · intro k
    unfold t2Lookup
    rw [hspec.1 k, hbase k]
    simp
  · intro k e he
    unfold t2Lookup
    refine hspec.2.1 k (tagCpc e) ?_
    rw [hbase k, he]
    rfl
  · intro k e he
    rcases hspec.2.2 k e he with h1 | h2
    · exact Or.inl (by rw [← hbase k]; exact h1)
    · exact Or.inr h2

theorem c3_lookup_amended_witness :
    (∀ k, (dlookup k (t2Lookup [("0", ⟨"0", "Goods", "0", "Goods", 1, "section"⟩)]
        [TNode.mk "t2-hts-0101" "01.01" "H" "heading" none])).isSome ↔
      ((dlookup k [("0", (⟨"0", "Goods", "0", "Goods", 1, "section"⟩ : LkEntry))]).isSome ∨
        ∃ n ∈ graftedF [TNode.mk "t2-hts-0101" "01.01" "H" "heading" none],
          k = "HTS" ++ t2CleanCode n)) ∧
    (∀ k e, dlookup k [("0", (⟨"0", "Goods", "0", "Goods", 1, "section"⟩ : LkEntry))]
        = some e →
      dlookup k (t2Lookup [("0", ⟨"0", "Goods", "0", "Goods", 1, "section"⟩)]
        [TNode.mk "t2-hts-0101" "01.01" "H" "heading" none]) = some (tagCpc e)) ∧
    (∀ k e, dlookup k (t2Lookup [("0", ⟨"0", "Goods", "0", "Goods", 1, "section"⟩)]
        [TNode.mk "t2-hts-0101" "01.01" "H" "heading" none]) = some e →
      ((dlookup k [("0", (⟨"0", "Goods", "0", "Goods", 1, "section"⟩ : LkEntry))]).map
          tagCpc = some e ∨
        ∃ n ∈ graftedF [TNode.mk "t2-hts-0101" "01.01" "H" "heading" none],
          htsEntryOf k e n)) :=
  c3_lookup_amended [("0", ⟨"0", "Goods", "0", "Goods", 1, "section"⟩)]
    [TNode.mk "t2-hts-0101" "01.01" "H" "heading" none]

/-- C3 (counterexample).  In the composed taxonomy built from a backbone
with two goods leaves both mapping to the same HTS code, two detail nodes
are grafted (the second with a `-d2` identifier) but the combined lookup
holds only one `hts`-origin entry: `add_hts_to_lookup` keys grafted entries
by the cleaned base code and skips keys already present, so the lookup does
not contain one entry per grafted detail node. -/
theorem c3_lookup_counterexample :
    (graftedF (t2TreeOf
        [TNode.mk "cpc-0" "0" "Goods" "section"
          (some [TNode.mk "cpc-01" "01" "A" "division" none,
                 TNode.mk "cpc-02" "02" "B" "division" none])]
        [("01", [⟨false, false, "010121"⟩]), ("02", [⟨false, false, "010121"⟩])]
        [("010121", TNode.mk "hts-010121" "0101.21" "Horses" "subheading" none)])).length
      = 2 ∧
    ((t2Lookup
        [("0", ⟨"0", "Goods", "0", "Goods", 1, "section"⟩),
         ("01", ⟨"01", "A", "0", "Goods", 2, "division"⟩),
         ("02", ⟨"02", "B", "0", "Goods", 2, "division"⟩)]
        (t2TreeOf
          [TNode.mk "cpc-0" "0" "Goods" "section"
            (some [TNode.mk "cpc-01" "01" "A" "division" none,
                   TNode.mk "cpc-02" "02" "B" "division" none])]
          [("01", [⟨false, false, "010121"⟩]), ("02", [⟨false, false, "010121"⟩])]
          [("010121", TNode.mk "hts-010121" "0101.21" "Horses" "subheading"
            none)])).filter (fun p => p.2.origin = "hts")).length = 1 := by
  decide

theorem cleanF_nil_iff : ∀ ts : List TNode, cleanF ts = [] ↔ ts = []
  | [] => by simp [cleanF]
  | t :: ts => by simp [cleanF]

mutual
theorem cleanN_noEmpty : ∀ t : TNode, noEmptyN (cleanN t) = true
  | .mk i c nm ty none => rfl
  | .mk i c nm ty (some cs) => by
    by_cases h : cs.isEmpty
    · simp [cleanN, h, noEmptyN]
    · have hrec := cleanF_noEmpty cs
      have hne : cleanF cs ≠ [] := by
        rw [Ne, cleanF_nil_iff]
        intro hc
        rw [hc] at h
        exact h rfl
      simp [cleanN, h, noEmptyN, hrec, List.isEmpty_iff, hne]
theorem cleanF_noEmpty : ∀ ts : List TNode, noEmptyF (cleanF ts) = true
  | [] => rfl
  | t :: ts => by
    simp [cleanF, noEmptyF, cleanN_noEmpty t, cleanF_noEmpty ts]
end

theorem reprefixF_nil_iff (o n : String) : ∀ ts : List TNode,
    reprefixF o n ts = [] ↔ ts = []
  | [] => by simp [reprefixF]
  | t :: ts => by simp [reprefixF]

mutual
theorem reprefixN_noEmpty : ∀ (o n : String) (t : TNode), noEmptyN t = true →
    noEmptyN (reprefixN o n t) = true
  | o, n, .mk i c nm ty none, _ => rfl
  | o, n, .mk i c nm ty (some cs), h => by
    simp only [noEmptyN, reprefixN, Bool.and_eq_true, Bool.not_eq_true'] at h ⊢
    refine ⟨?_, reprefixF_noEmpty o n cs h.2⟩
    have hcs : cs ≠ [] := by
      intro hc
      rw [hc] at h
      exact absurd h.1 (by simp)
    cases hrf : reprefixF o n cs with
    | nil => exact absurd ((reprefixF_nil_iff o n cs).1 hrf) hcs
    | cons a as => rfl
theorem reprefixF_noEmpty : ∀ (o n : String) (ts : List TNode), noEmptyF ts = true →
    noEmptyF (reprefixF o n ts) = true
  | o, n, [], _ => rfl
  | o, n, t :: ts, h => by
    simp only [noEmptyF, reprefixF, Bool.and_eq_true] at h ⊢
    exact ⟨reprefixN_noEmpty o n t h.1, reprefixF_noEmpty o n ts h.2⟩
end

theorem muiL_nil_iff : ∀ (used : List String) (ts : List TNode),
    (muiL used ts).2 = [] ↔ ts = []
  | used, [] => by simp [muiL]
  | used, t :: ts => by simp [muiL]

mutual
theorem muiN_noEmpty : ∀ (used : List String) (t : TNode), noEmptyN t = true →
    noEmptyN (muiN used t).2 = true
  | used, .mk i c nm ty none, _ => by
    simp [muiN, noEmptyN]
  | used, .mk i c nm ty (some cs), h => by
    simp only [noEmptyN, muiN, Bool.and_eq_true, Bool.not_eq_true'] at h ⊢
    refine ⟨?_, muiL_noEmpty _ cs h.2⟩
    have hcs : cs ≠ [] := by
      intro hc
      rw [hc] at h
      exact absurd h.1 (by simp)
    cases hrf : (muiL ((if i ∈ used then muiFresh used i else i) :: used) cs).2 with
    | nil => exact absurd ((muiL_nil_iff _ cs).1 hrf) hcs
    | cons a as => rfl
theorem muiL_noEmpty : ∀ (used : List String) (ts : List TNode), noEmptyF ts = true →
    noEmptyF (muiL used ts).2 = true
  | used, [], _ => rfl
  | used, t :: ts, h => by
    simp only [noEmptyF, muiL, Bool.and_eq_true] at h ⊢
    exact ⟨muiN_noEmpty used t h.1, muiL_noEmpty (muiN used t).1 ts h.2⟩
end

theorem dlookup_mem {α : Type} (k : String) (v : α) : ∀ (d : List (String × α)),
    dlookup k d = some v → (k, v) ∈ d
  | [], h => Option.noConfusion h
  | p :: rest, h => by
    obtain ⟨pa, pb⟩ := p
    by_cases hp : pa = k
    · rw [dlookup, if_pos hp] at h
      obtain rfl := Option.some_inj.1 h
      subst hp
      exact List.mem_cons_self _ _
    · rw [dlookup, if_neg hp] at h
      exact List.mem_cons_of_mem _ (dlookup_mem k v rest h)

theorem extract_mem (idx : List (String × TNode)) (hs : String) (t : TNode)
    (ht : t ∈ extractForHs idx hs) : ∃ p ∈ idx, p.2 = t := by
  unfold extractForHs at ht
  cases h1 : dlookup hs idx with
  | some n =>
    rw [h1] at ht
    rw [List.mem_singleton.1 ht]
    exact ⟨(hs, n), dlookup_mem hs n idx h1, rfl⟩
  | none =>
    rw [h1] at ht
    cases h2 : dlookup (hs ++ "00") idx with
    | some n =>
      rw [h2] at ht
      rw [List.mem_singleton.1 ht]
      exact ⟨(hs ++ "00", n), dlookup_mem _ n idx h2, rfl⟩
    | none =>
      rw [h2] at ht
      by_cases h3 : !((idx.filter
          (fun p => strStarts p.1 hs && strLen p.1 = 8)).map (·.2)).isEmpty
      · rw [if_pos h3] at ht
        obtain ⟨p, hp, rfl⟩ := List.mem_map.1 ht
        exact ⟨p, (List.mem_filter.1 hp).1, rfl⟩
      · rw [if_neg h3] at ht
        obtain ⟨p, hp, rfl⟩ := List.mem_map.1 ht
        exact ⟨p, (List.mem_filter.1 hp).1, rfl⟩

theorem graftOne_noEmpty (used : List String) (t : TNode) (h : noEmptyN t = true) :
    noEmptyN (graftOne used t).2 = true := by
  unfold graftOne
  exact muiN_noEmpty used _ (reprefixN_noEmpty "hts-" "t2-hts-" t h)

theorem graftMany_noEmpty : ∀ (used : List String) (ts : List TNode),
    (∀ t ∈ ts, noEmptyN t = true) → noEmptyF (graftMany used ts).2 = true
  | used, [], _ => rfl
  | used, t :: ts, h => by
    simp only [graftMany, noEmptyF, Bool.and_eq_true]
    exact ⟨graftOne_noEmpty used t (h t (by simp)),
      graftMany_noEmpty (graftOne used t).1 ts (fun x hx => h x (by simp [hx]))⟩

theorem graftCodes_noEmpty (idx : List (String × TNode))
    (hidx : ∀ p ∈ idx, noEmptyN p.2 = true) : ∀ (hs : List String) (used : List String),
    noEmptyF (graftCodes idx used hs).2 = true
  | [], used => rfl
  | h :: hs, used => by
    simp only [graftCodes]
    have h1 : noEmptyF (graftMany used (extractForHs idx h)).2 = true :=
      graftMany_noEmpty used _ (fun t ht => by
        obtain ⟨p, hp, rfl⟩ := extract_mem idx h t ht
        exact hidx p hp)
    have h2 := graftCodes_noEmpty idx hidx hs (graftMany used (extractForHs idx h)).1
    revert h1 h2
    generalize (graftMany used (extractForHs idx h)).2 = l1
    generalize (graftCodes idx (graftMany used (extractForHs idx h)).1 hs).2 = l2
    intro h1 h2
    induction l1 with
    | nil => simpa using h2
    | cons a as ih =>
      simp only [noEmptyF, List.cons_append, Bool.and_eq_true] at h1 ⊢
      exact ⟨h1.1, ih h1.2⟩

theorem noEmptyF_append (l1 l2 : List TNode) (h1 : noEmptyF l1 = true)
    (h2 : noEmptyF l2 = true) : noEmptyF (l1 ++ l2) = true := by
  induction l1 with
  | nil => simpa using h2
  | cons a as ih =>
    simp only [noEmptyF, List.cons_append, Bool.and_eq_true] at h1 ⊢
    exact ⟨h1.1, ih h1.2⟩

mutual
theorem attachN_noEmpty : ∀ (t : TNode) (conc : List (String × List ConcEntry))
    (idx : List (String × TNode)) (used : List String) (g : Bool),
    noEmptyN t = true → (∀ p ∈ idx, noEmptyN p.2 = true) →
    noEmptyN (attachN conc idx used g t).2 = true
  | .mk i c nm ty none, conc, idx, used, g, _, hidx => by
    rw [attachN_leaf]
    by_cases hg : (g || (decide (strLen (replaceAllStr i "t2-") = 1) &&
        decide ((replaceAllStr i "t2-") ∈ goodsSecCodes))) = true
    · rw [if_pos hg]
      by_cases hk : (graftCodes idx used
          (((dlookup (replaceAllStr i "t2-") conc).getD []).map ConcEntry.code)).2.isEmpty
      · rw [if_pos hk]
        rfl
      · rw [if_neg hk]
        simp only [noEmptyN, Bool.and_eq_true, Bool.not_eq_true']
        refine ⟨by simpa using hk, graftCodes_noEmpty idx hidx _ used⟩
    · rw [if_neg hg]
      rfl
  | .mk i c nm ty (some cs), conc, idx, used, g, h, hidx => by
    rw [attachN_node]
    simp only [noEmptyN, Bool.and_eq_true, Bool.not_eq_true'] at h ⊢
    have hcs : cs ≠ [] := by
      intro hc
      rw [hc] at h
      exact absurd h.1 (by simp)
    refine ⟨?_, attachF_noEmpty cs conc idx used _ h.2 hidx⟩
    have hlen : (attachF conc idx used (g || (decide (strLen (replaceAllStr i "t2-") = 1)
        && decide ((replaceAllStr i "t2-") ∈ goodsSecCodes))) cs).2 ≠ [] := by
      cases hcase : cs with
      | nil => exact absurd hcase hcs
      | cons a as =>
        rw [attachF_cons]
        simp
    cases hrf : (attachF conc idx used (g || (decide (strLen (replaceAllStr i "t2-") = 1)
        && decide ((replaceAllStr i "t2-") ∈ goodsSecCodes))) cs).2 with
    | nil => exact absurd hrf hlen
    | cons a as => rfl
theorem attachF_noEmpty : ∀ (ts : List TNode) (conc : List (String × List ConcEntry))
    (idx : List (String × TNode)) (used : List String) (g : Bool),
    noEmptyF ts = true → (∀ p ∈ idx, noEmptyN p.2 = true) →
    noEmptyF (attachF conc idx used g ts).2 = true
  | [], _, _, _, _, _, _ => rfl
  | t :: ts, conc, idx, used, g, h, hidx => by
    rw [attachF_cons]
    simp only [noEmptyF, Bool.and_eq_true] at h ⊢
    exact ⟨attachN_noEmpty t conc idx used g h.1 hidx,
      attachF_noEmpty ts conc idx (attachN conc idx used g t).1 g h.2 hidx⟩
end

/-- C9.  No produced tree document contains an empty `children` sequence:
`clean_tree` deletes empty children fields everywhere (a node assembled
with `children = []` leaves it with no children field), re-keying preserves
the property, and nested composition (`attach_hts_detail`) preserves it —
grafted children lists are installed only when non-empty and are drawn
from the (cleaned) detail index. -/
theorem c9_no_empty_children (conc : List (String × List ConcEntry))
    (idx : List (String × TNode)) (used : List String) (g : Bool)
    (backbone : List TNode) (hb : noEmptyF backbone = true)
    (hidx : ∀ p ∈ idx, noEmptyN p.2 = true) :
    (∀ ts : List TNode, noEmptyF (cleanF ts) = true) ∧
    (∀ i c nm ty : String, cleanN (.mk i c nm ty (some [])) = .mk i c nm ty none) ∧
    (∀ (o n : String) (ts : List TNode), noEmptyF ts = true →
      noEmptyF (reprefixF o n ts) = true) ∧
    noEmptyF (attachF conc idx used g backbone).2 = true := by
  refine ⟨cleanF_noEmpty, ?_, reprefixF_noEmpty, ?_⟩
  · intro i c nm ty
    rfl
  · exact attachF_noEmpty backbone conc idx used g hb hidx

theorem c9_no_empty_children_witness :
    (noEmptyF [TNode.mk "cpc-0" "0" "Goods" "section"
        (some [TNode.mk "cpc-01" "01" "A" "division" none])] = true) ∧
    (∀ p ∈ [("010121", TNode.mk "hts-010121" "0101.21" "Horses" "subheading" none)],
      noEmptyN p.2 = true) ∧
    ((∀ ts : List TNode, noEmptyF (cleanF ts) = true) ∧
    (∀ i c nm ty : String, cleanN (.mk i c nm ty (some [])) = .mk i c nm ty none) ∧
    (∀ (o n : String) (ts : List TNode), noEmptyF ts = true →
      noEmptyF (reprefixF o n ts) = true) ∧
    noEmptyF (attachF [("01", [⟨false, false, "010121"⟩])]
      [("010121", TNode.mk "hts-010121" "0101.21" "Horses" "subheading" none)]
      ["t2-0", "t2-01"] false
      [TNode.mk "cpc-0" "0" "Goods" "section"
        (some [TNode.mk "cpc-01" "01" "A" "division" none])]).2 = true) :=
  ⟨by decide, by decide,
    c9_no_empty_children [("01", [⟨false, false, "010121"⟩])]
      [("010121", TNode.mk "hts-010121" "0101.21" "Horses" "subheading" none)]
      ["t2-0", "t2-01"] false
      [TNode.mk "cpc-0" "0" "Goods" "section"
        (some [TNode.mk "cpc-01" "01" "A" "division" none])]
      (by decide) (by decide)⟩

/-- C8.  The HTS tree builder is not deterministic across interpreter
runs: a node with no code of its own receives the identifier
`hts-group-{stack depth}-{hash(desc) % 100000}`, and Python's string
`hash` is seeded per process.  Modelling the hash as an explicit
parameter, the same input yields different tree documents under two hash
functions, the ids differing exactly in the hash component. -/
theorem c8_hash_nondeterminism :
    forestIds (htsTree (fun _ => 0) [("I", "Live Animals")]
        [⟨"", 0, "Something", false⟩])
      = ["hts-section-I", "hts-group-0-0", "hts-section-XXII"] ∧
    forestIds (htsTree (fun _ => 1) [("I", "Live Animals")]
        [⟨"", 0, "Something", false⟩])
      = ["hts-section-I", "hts-group-0-1", "hts-section-XXII"] ∧
    forestIds (htsTree (fun _ => 0) [("I", "Live Animals")]
        [⟨"", 0, "Something", false⟩])
      ≠ forestIds (htsTree (fun _ => 1) [("I", "Live Animals")]
        [⟨"", 0, "Something", false⟩]) := by
  decide

/-- C10.  Indentation-stack assembly on the record sequence with indents
`[0, 1, 1, 2, 1]`, all records container-capable (codeless `group` rows):
one root (item 1) under its section with exactly the children items 2, 3
and 5 in order, item 3 holding exactly item 4, and item 5 a sibling of
items 2 and 3. -/
theorem c10_indentation_shape :
    htsTree (fun _ => 0) [("I", "Live Animals")]
      [⟨"", 0, "a1", false⟩, ⟨"", 1, "a2", false⟩, ⟨"", 1, "a3", false⟩,
       ⟨"", 2, "a4", false⟩, ⟨"", 1, "a5", false⟩]
    = [TNode.mk "hts-section-I" "I" "Live Animals" "section"
        (some [TNode.mk "hts-group-0-0" "" "a1" "group"
          (some [TNode.mk "hts-group-1-0" "" "a2" "group" none,
                 TNode.mk "hts-group-2-0" "" "a3" "group"
                   (some [TNode.mk "hts-group-2-0" "" "a4" "group" none]),
                 TNode.mk "hts-group-3-0" "" "a5" "group" none])]),
       TNode.mk "hts-section-XXII" "XXII" "Special Classification Provisions"
         "section" none] := by
  rfl
